import Mathlib

set_option maxHeartbeats 1000000

/- Verification of the rez-cook constraint algebra and dependency resolver.
   The definitions below embed src/package_list.py, src/recipe.py and the
   resolver functions of src/rez-cook.py.  The rez library types
   (VersionRange, PackageRequest) are external to the repository and are
   modelled from the spec's data model (section 3). -/

/-- Modelled from the spec: a version range is a set-valued type over an ordered
version domain (spec section 3); versions are drawn from Nat and a range is the
finite set of versions it accepts. -/
abbrev VersionRange := List Nat

/-- Modelled from the spec: intersection of two ranges, the versions common to both
(may be empty, which is not an error by itself). -/
def rangeInter (a b : VersionRange) : VersionRange := a.filter (fun v => b.contains v)

/-- Modelled from the spec: two ranges intersect iff their intersection is nonempty
(spec section 8: intersection is empty iff intersects is false). -/
def rangeIntersects (a b : VersionRange) : Bool := !(rangeInter a b).isEmpty

/-- Modelled from the spec: a Package Request is a family name plus a version range. -/
structure PackageRequest where
  name : String
  range : VersionRange
deriving DecidableEq

/-- Modelled from the spec: two requests conflict iff they share the name and their
ranges have an empty intersection. -/
def PackageRequest.conflicts_with (p r : PackageRequest) : Bool :=
  p.name == r.name && !(rangeIntersects p.range r.range)

/-- Modelled from the spec: merging two same-named requests intersects their ranges,
failing (none) on an empty intersection; the source only merges same-named requests. -/
def PackageRequest.merged (p q : PackageRequest) : Option PackageRequest :=
  if p.name = q.name then
    (if rangeIntersects p.range q.range then some ⟨p.name, rangeInter p.range q.range⟩
     else none)
  else none

/-- One entry of a diagnostic chain: the str(...) texts appended at src/rez-cook.py
line 150, and the boolean literal appended at line 86 (the source appends the truthy
result of conflicts_with_package_list, which is the Bool True). -/
inductive ChainEntry where
  | txt : String → ChainEntry
  | flag : Bool → ChainEntry
deriving DecidableEq

abbrev Chain := List ChainEntry

/-- Failure modes of the embedded code.  versionConflict carries the two requests of
the "Cannot merge p with q" message (src/package_list.py); runtimeNotFound and
runtimeNoSuitable model the two RuntimeError raises in build_dependency_tree
(src/rez-cook.py lines 131 and 175, the latter carrying failed_dependency_chains);
typeErrorSubscript models the TypeError raised by get_conflicts through
conflicts.append[(p, r)] (src/package_list.py line 36); outOfFuel marks exhaustion
of the explicit recursion budget that makes the Python recursion total here. -/
inductive Err where
  | versionConflict : PackageRequest → PackageRequest → Err
  | runtimeNotFound : PackageRequest → Err
  | runtimeNoSuitable : PackageRequest → List Chain → Err
  | typeErrorSubscript : Err
  | outOfFuel : Err
deriving DecidableEq

/-- src/package_list.py lines 7-18: PackageList wraps the given list of requests
verbatim (no deduplication of family names happens in the constructor). -/
structure PackageList where
  pkgs : List PackageRequest
deriving DecidableEq

/-- The family names of a PackageList, in order. -/
def PackageList.names (a : PackageList) : List String := a.pkgs.map (fun p => p.name)

/-- src/package_list.py lines 20-26: any pair (p from self, r from rhs) conflicting. -/
def PackageList.has_conflicts_with (a b : PackageList) : Bool :=
  a.pkgs.any (fun p => b.pkgs.any (fun r => p.conflicts_with r))

/-- src/package_list.py lines 28-29: the method returns len(self._pkgs) != 0. -/
def PackageList.is_empty (a : PackageList) : Bool := a.pkgs.length != 0

/-- Inner loop of get_conflicts for one element p of self: the first conflicting r
raises TypeError because conflicts.append[(p, r)] subscripts the bound method. -/
def gcInner (p : PackageRequest) : List PackageRequest → Except Err Unit
  | [] => .ok ()
  | r :: rs => if p.conflicts_with r then .error .typeErrorSubscript else gcInner p rs

/-- Outer loop of get_conflicts (src/package_list.py lines 33-37). -/
def gcLoop : List PackageRequest → List PackageRequest → Except Err (List (PackageRequest × PackageRequest))
  | [], _ => .ok []
  | p :: ps, rs =>
    match gcInner p rs with
    | .error e => .error e
    | .ok () => gcLoop ps rs

/-- src/package_list.py lines 31-38. -/
def PackageList.get_conflicts (a b : PackageList) : Except Err (List (PackageRequest × PackageRequest)) :=
  gcLoop a.pkgs b.pkgs

/-- src/package_list.py lines 40-45: some element of self conflicts with r. -/
def PackageList.conflicts_with (a : PackageList) (r : PackageRequest) : Bool :=
  a.pkgs.any (fun p => p.conflicts_with r)

/-- Association-list model of a Python dict: insertion order is kept, assignment to
an existing key updates the value in place, a new key is appended at the end. -/
abbrev Dict (α : Type) := List (String × α)

def dictHas {α : Type} (d : Dict α) (k : String) : Bool := d.any (fun kv => kv.1 == k)

def dictFind {α : Type} (d : Dict α) (k : String) : Option α :=
  (d.find? (fun kv => kv.1 == k)).map (fun kv => kv.2)

def dictInsert {α : Type} (d : Dict α) (k : String) (v : α) : Dict α :=
  if dictHas d k then d.map (fun kv => if kv.1 == k then (kv.1, v) else kv)
  else d ++ [(k, v)]

def dictKeys {α : Type} (d : Dict α) : List String := d.map (fun kv => kv.1)

/-- Models dict(zip([p.name for p in pkgs], pkgs)). -/
def buildDict (ps : List PackageRequest) : Dict PackageRequest :=
  ps.foldl (fun d p => dictInsert d p.name p) []

/-- Loop of PackageList.additive_merged over rhs (src/package_list.py lines 54-61):
shared names are merged in place (VersionConflict on empty intersection), new names
are appended. -/
def amLoop : List PackageRequest → Dict PackageRequest → Except Err (Dict PackageRequest)
  | [], d => .ok d
  | p :: ps, d =>
    match dictFind d p.name with
    | some q =>
      match p.merged q with
      | none => .error (.versionConflict p q)
      | some m => amLoop ps (dictInsert d p.name ⟨m.name, m.range⟩)
    | none => amLoop ps (dictInsert d p.name p)

/-- src/package_list.py lines 47-63. -/
def PackageList.additive_merged (a b : PackageList) : Except Err PackageList :=
  match amLoop b.pkgs (buildDict a.pkgs) with
  | .error e => .error e
  | .ok d => .ok ⟨d.map (fun kv => kv.2)⟩

/-- Loop of PackageList.merged over rhs (src/package_list.py lines 73-78): only names
present in both lists are kept, with merged ranges. -/
def mLoop : List PackageRequest → Dict PackageRequest → Except Err (List PackageRequest)
  | [], _ => .ok []
  | p :: ps, d =>
    match dictFind d p.name with
    | some q =>
      match p.merged q with
      | none => .error (.versionConflict p q)
      | some m =>
        match mLoop ps d with
        | .error e => .error e
        | .ok l => .ok (⟨m.name, m.range⟩ :: l)
    | none => mLoop ps d

/-- src/package_list.py lines 66-80. -/
def PackageList.merged (a b : PackageList) : Except Err PackageList :=
  match mLoop b.pkgs (buildDict a.pkgs) with
  | .error e => .error e
  | .ok l => .ok ⟨l⟩

/-- Loop of PackageList.merged_into over self (src/package_list.py lines 91-98):
names also in rhs get merged ranges, names only in self pass through unchanged. -/
def miLoop : List PackageRequest → Dict PackageRequest → Except Err (List PackageRequest)
  | [], _ => .ok []
  | p :: ps, d =>
    match dictFind d p.name with
    | some q =>
      match p.merged q with
      | none => .error (.versionConflict p q)
      | some m =>
        match miLoop ps d with
        | .error e => .error e
        | .ok l => .ok (⟨m.name, m.range⟩ :: l)
    | none =>
      match miLoop ps d with
      | .error e => .error e
      | .ok l => .ok (p :: l)

/-- src/package_list.py lines 83-100. -/
def PackageList.merged_into (a b : PackageList) : Except Err PackageList :=
  match miLoop a.pkgs (buildDict b.pkgs) with
  | .error e => .error e
  | .ok l => .ok ⟨l⟩

/-- src/package_list.py lines 103-111: intersect the matching name in place, no
failure even on an empty resulting range. -/
def PackageList.constrained (a : PackageList) (rhs : PackageRequest) : PackageList :=
  ⟨a.pkgs.map (fun p => if rhs.name = p.name then ⟨p.name, rangeInter p.range rhs.range⟩ else p)⟩

/-- Loop of add_constraint (src/package_list.py lines 117-126). -/
def acLoop (rhs : PackageRequest) : List PackageRequest → Except Err (List PackageRequest × Bool)
  | [] => .ok ([], false)
  | p :: ps =>
    if rhs.name = p.name then
      match p.merged rhs with
      | none => .error (.versionConflict p rhs)
      | some m =>
        match acLoop rhs ps with
        | .error e => .error e
        | .ok (l, _) => .ok (⟨m.name, m.range⟩ :: l, true)
    else
      match acLoop rhs ps with
      | .error e => .error e
      | .ok (l, found) => .ok (p :: l, found)

/-- src/package_list.py lines 114-131 (the source stores the result back into
self._pkgs, incidentally wrapped in a PackageList; modelled as returning the new
list, which is what every later read observes element-wise). -/
def PackageList.add_constraint (a : PackageList) (rhs : PackageRequest) : Except Err PackageList :=
  match acLoop rhs a.pkgs with
  | .error e => .error e
  | .ok (l, found) => .ok ⟨if found then l else l ++ [rhs]⟩

/-- src/package_list.py lines 161-162: operator + concatenates the two request lists. -/
def PackageList.append (a b : PackageList) : PackageList := ⟨a.pkgs ++ b.pkgs⟩

/-- src/recipe.py lines 6-23 (the constructor formats name and range into self.pkg;
modelled directly as the pkg field). -/
structure Recipe where
  pkg : PackageRequest
  variant : PackageList
  requires : PackageList
  build_requires : PackageList
  installed : Bool
deriving DecidableEq

/-- src/recipe.py lines 25-38. -/
def Recipe.conflicts_with_package (r : Recipe) (rhs : PackageRequest) : Bool :=
  (r.pkg.name == rhs.name && !(rangeIntersects r.pkg.range rhs.range))
  || r.variant.conflicts_with rhs
  || r.requires.conflicts_with rhs
  || r.build_requires.conflicts_with rhs

/-- src/recipe.py lines 40-58: note that inside the per-entry loop the source tests
variant/requires/build_requires against the whole rhs list (has_conflicts_with rhs),
not against the single entry p; this is embedded exactly as written. -/
def Recipe.conflicts_with_package_list (r : Recipe) (rhs : PackageList) : Bool :=
  rhs.pkgs.any (fun p =>
    (r.pkg.name == p.name && !(rangeIntersects r.pkg.range p.range))
    || r.variant.has_conflicts_with rhs
    || r.requires.has_conflicts_with rhs
    || r.build_requires.has_conflicts_with rhs)

/-- The recipe catalog RECIPES: family name to known recipes, preference order. -/
abbrev Catalog := Dict (List Recipe)

/-- The new_deps accumulator of build_dependency_tree: name to recipes found. -/
abbrev DepsMap := Dict (List Recipe)

def depsGet (nd : DepsMap) (k : String) : List Recipe := (dictFind nd k).getD []

/-- Modelled from the spec: textual rendering str(rec.pkg) used only in diagnostic
chains. -/
def pkgReqStr (p : PackageRequest) : String :=
  p.name ++ "-" ++ String.intercalate "," (p.range.map (fun v => toString v))

/-- src/rez-cook.py lines 160-162: append the dep recipes not already present. -/
def appendMissing (ex : List Recipe) (drs : List Recipe) : List Recipe :=
  drs.foldl (fun ex dr => if dr ∈ ex then ex else ex ++ [dr]) ex

/-- src/rez-cook.py lines 157-164: union the recursive result into new_deps. -/
def mergeDeps (nd : DepsMap) (deps : DepsMap) : DepsMap :=
  deps.foldl
    (fun nd kv =>
      if dictHas nd kv.1 then dictInsert nd kv.1 (appendMissing (depsGet nd kv.1) kv.2)
      else dictInsert nd kv.1 kv.2)
    nd

/-- src/rez-cook.py lines 166-170: record the accepted recipe under its own name. -/
def addSelf (nd : DepsMap) (r : Recipe) : DepsMap :=
  if dictHas nd r.pkg.name then
    (if r ∈ depsGet nd r.pkg.name then nd
     else dictInsert nd r.pkg.name (depsGet nd r.pkg.name ++ [r]))
  else dictInsert nd r.pkg.name [r]

/-- Candidate loop of has_dependency_conflict (src/rez-cook.py lines 95-102):
all_conflict is cleared by any candidate that is version-compatible and recursively
conflict-free; the loop never breaks early and threads the diagnostic chain. -/
def hdcRecLoop (next : Recipe → PackageList → Chain → Except Err (Bool × Chain))
    (pkg : PackageRequest) :
    List Recipe → PackageList → Chain → Bool → Except Err (Bool × Chain)
  | [], _, chain, allConflict => .ok (allConflict, chain)
  | r :: rs, constraints, chain, allConflict =>
    if r.pkg.conflicts_with pkg then hdcRecLoop next pkg rs constraints chain allConflict
    else
      match next r constraints chain with
      | .error e => .error e
      | .ok (c, ch) => hdcRecLoop next pkg rs constraints ch (if c then allConflict else false)

/-- Dependency loop of has_dependency_conflict (src/rez-cook.py lines 93-102): a
dependency name absent from the catalog contributes nothing. -/
def hdcPkgLoop (cat : Catalog) (next : Recipe → PackageList → Chain → Except Err (Bool × Chain)) :
    List PackageRequest → PackageList → Chain → Bool → Except Err (Bool × Chain)
  | [], _, chain, allConflict => .ok (allConflict, chain)
  | pkg :: ps, constraints, chain, allConflict =>
    match dictFind cat pkg.name with
    | none => hdcPkgLoop cat next ps constraints chain allConflict
    | some recs =>
      match hdcRecLoop next pkg recs constraints chain allConflict with
      | .error e => .error e
      | .ok (ac, ch) => hdcPkgLoop cat next ps constraints ch ac

/-- One unfolding of has_dependency_conflict (src/rez-cook.py lines 73-106), with
the recursive call abstracted as next. -/
def hdcStep (cat : Catalog) (next : Recipe → PackageList → Chain → Except Err (Bool × Chain))
    (recipe : Recipe) (constraints : PackageList) (chain : Chain) : Except Err (Bool × Chain) :=
  if recipe.conflicts_with_package_list constraints then .ok (true, chain ++ [ChainEntry.flag true])
  else
    match recipe.build_requires.additive_merged recipe.requires with
    | .error e => .error e
    | .ok merged =>
      if merged.pkgs.length != 0 then hdcPkgLoop cat next merged.pkgs constraints chain true
      else .ok (false, chain)

/-- src/rez-cook.py lines 73-106, made total by an explicit fuel budget: the Python
function recurses with no decreasing argument, so each level of recursion consumes
one unit of fuel and exhaustion is reported as Err.outOfFuel.  Returns the boolean
result together with the final state of the mutated failed_dependency_chain. -/
def has_dependency_conflict (cat : Catalog) (fuel : Nat) :
    Recipe → PackageList → Chain → Except Err (Bool × Chain) :=
  Nat.rec (motive := fun _ => Recipe → PackageList → Chain → Except Err (Bool × Chain))
    (fun _ _ _ => .error .outOfFuel)
    (fun _ ih => hdcStep cat ih) fuel

/-- Candidate loop of build_dependency_tree (src/rez-cook.py lines 137-172): each
candidate that passes the version check and the recursive conflict check is recursed
into and recorded; candidates rejected by the conflict check contribute their
failchain; the loop deliberately does not break after a success. -/
def bdtRecLoop (nextB : Recipe → PackageList → Chain → Except Err (PackageList × DepsMap))
    (nextH : Recipe → PackageList → Chain → Except Err (Bool × Chain))
    (pkg : PackageRequest) :
    List Recipe → PackageList → Chain → DepsMap → List Chain → Bool →
    Except Err (PackageList × DepsMap × List Chain × Bool)
  | [], c, _, nd, fails, fa => .ok (c, nd, fails, fa)
  | r :: rs, c, chain, nd, fails, fa =>
    if r.pkg.conflicts_with pkg then bdtRecLoop nextB nextH pkg rs c chain nd fails fa
    else
      match nextH r c chain with
      | .error e => .error e
      | .ok (true, failchain) => bdtRecLoop nextB nextH pkg rs c chain nd (fails ++ [failchain]) fa
      | .ok (false, _) =>
        match nextB r c (chain ++ [ChainEntry.txt (pkgReqStr r.pkg)]) with
        | .error e => .error e
        | .ok (c2, deps) =>
          bdtRecLoop nextB nextH pkg rs c2 chain (addSelf (mergeDeps nd deps) r) fails true

/-- Dependency loop of build_dependency_tree (src/rez-cook.py lines 129-175): a name
missing from the catalog raises RuntimeError("Could not find a recipe for ..."), and
a name all of whose candidates were rejected raises RuntimeError("Could not find
suitable recipe for ...") carrying failed_dependency_chains. -/
def bdtPkgLoop (cat : Catalog)
    (nextB : Recipe → PackageList → Chain → Except Err (PackageList × DepsMap))
    (nextH : Recipe → PackageList → Chain → Except Err (Bool × Chain)) :
    List PackageRequest → PackageList → Chain → DepsMap → Except Err (PackageList × DepsMap)
  | [], c, _, nd => .ok (c, nd)
  | pkg :: ps, c, chain, nd =>
    match dictFind cat pkg.name with
    | none => .error (.runtimeNotFound pkg)
    | some recs =>
      match bdtRecLoop nextB nextH pkg recs c chain nd [] false with
      | .error e => .error e
      | .ok (c2, nd2, fails, fa) =>
        if fa then bdtPkgLoop cat nextB nextH ps c2 chain nd2
        else .error (.runtimeNoSuitable pkg fails)

/-- src/rez-cook.py lines 123-124: fold the merged requirements into the accumulator. -/
def addConstraints : List PackageRequest → PackageList → Except Err PackageList
  | [], c => .ok c
  | p :: ps, c =>
    match c.add_constraint p with
    | .error e => .error e
    | .ok c2 => addConstraints ps c2

/-- One unfolding of build_dependency_tree (src/rez-cook.py lines 109-177), with the
recursive call and has_dependency_conflict abstracted as nextB and nextH. -/
def bdtStep (cat : Catalog)
    (nextB : Recipe → PackageList → Chain → Except Err (PackageList × DepsMap))
    (nextH : Recipe → PackageList → Chain → Except Err (Bool × Chain))
    (recipe : Recipe) (constraints : PackageList) (chain : Chain) :
    Except Err (PackageList × DepsMap) :=
  match recipe.build_requires.additive_merged recipe.requires with
  | .error e => .error e
  | .ok m1 =>
    match m1.additive_merged recipe.variant with
    | .error e => .error e
    | .ok mr =>
      match addConstraints mr.pkgs constraints with
      | .error e => .error e
      | .ok c2 => bdtPkgLoop cat nextB nextH mr.pkgs c2 chain []

/-- src/rez-cook.py lines 109-177, made total by an explicit fuel budget (the Python
recursion has no decreasing argument).  Returns the final state of the mutated
constraints accumulator together with the new_deps map. -/
def build_dependency_tree (cat : Catalog) (fuel : Nat) :
    Recipe → PackageList → Chain → Except Err (PackageList × DepsMap) :=
  Nat.rec (motive := fun _ => Recipe → PackageList → Chain → Except Err (PackageList × DepsMap))
    (fun _ _ _ => .error .outOfFuel)
    (fun n ih => bdtStep cat ih (has_dependency_conflict cat n)) fuel

/-- One unfolding of the acceptance predicate claimed by C1, with the recursive call
abstracted as next.  This follows the claim's words, not the source: a recipe is
accepted iff it does not conflict with the constraints and EVERY entry of its merged
build_requires/requires list has at least one catalog alternative that is
version-compatible and recursively accepted. -/
def specAcceptsStep (cat : Catalog) (next : Recipe → PackageList → Bool)
    (r : Recipe) (c : PackageList) : Bool :=
  !(r.conflicts_with_package_list c) &&
    (match r.build_requires.additive_merged r.requires with
     | .error _ => false
     | .ok m =>
       m.pkgs.all (fun pkg =>
         match dictFind cat pkg.name with
         | none => false
         | some recs => recs.any (fun rc => !(rc.pkg.conflicts_with pkg) && next rc c)))

/-- Claim-side acceptance predicate for C1 (follows the claim's words, for
comparison against has_dependency_conflict), with the same fuel discipline. -/
def specAccepts (cat : Catalog) (fuel : Nat) : Recipe → PackageList → Bool :=
  Nat.rec (motive := fun _ => Recipe → PackageList → Bool)
    (fun _ _ => false)
    (fun _ ih => specAcceptsStep cat ih) fuel

/-- Well-formedness of the request dicts built inside the merge operations: keys are
unique and every stored request's name equals its key. -/
def WFDict (d : Dict PackageRequest) : Prop :=
  (dictKeys d).Nodup ∧ ∀ kv ∈ d, kv.2.name = kv.1

/-- The per-entry result of merged_into: intersect with the matching rhs entry, or
pass the entry through unchanged. -/
def miTransfer (d : Dict PackageRequest) (p : PackageRequest) : PackageRequest :=
  match dictFind d p.name with
  | some q => ⟨p.name, rangeInter p.range q.range⟩
  | none => p

/-- Chain-insensitivity of an outcome of the conflict check: same error, or same
boolean verdict with possibly different diagnostic chains. -/
abbrev sameOutcome (x y : Except Err (Bool × Chain)) : Prop :=
  (∃ e, x = .error e ∧ y = .error e) ∨ (∃ b c1 c2, x = .ok (b, c1) ∧ y = .ok (b, c2))

/-- Concrete catalog recipe for C1: family a, version 1, no requirements. -/
def exRecipeA : Recipe := ⟨⟨"a", [1]⟩, ⟨[]⟩, ⟨[]⟩, ⟨[]⟩, false⟩

/-- Concrete recipe for C1: requires a (resolvable) and b (absent from catalog). -/
def exRecipeR : Recipe := ⟨⟨"r", [1]⟩, ⟨[]⟩, ⟨[⟨"a", [1]⟩, ⟨"b", [1]⟩]⟩, ⟨[]⟩, false⟩

/-- Concrete catalog for C1: only family a is known. -/
def exCat1 : Catalog := [("a", [exRecipeA])]

/-- Concrete candidate a-2 for C2. -/
def exA2 : Recipe := ⟨⟨"a", [2]⟩, ⟨[]⟩, ⟨[]⟩, ⟨[]⟩, false⟩

/-- Concrete candidate a-1 for C2. -/
def exA1 : Recipe := ⟨⟨"a", [1]⟩, ⟨[]⟩, ⟨[]⟩, ⟨[]⟩, true⟩

/-- Concrete root recipe for C2: requires a at range {1,2}, both candidates fit. -/
def exRoot2 : Recipe := ⟨⟨"root", [1]⟩, ⟨[]⟩, ⟨[⟨"a", [1, 2]⟩]⟩, ⟨[]⟩, false⟩

/-- Concrete catalog for C2: family a has two non-conflicting candidates. -/
def exCat2 : Catalog := [("a", [exA2, exA1])]

/-- Concrete root recipe for C3: requires family m, absent from the catalog. -/
def exRoot3 : Recipe := ⟨⟨"root", [1]⟩, ⟨[]⟩, ⟨[⟨"m", [1]⟩]⟩, ⟨[]⟩, false⟩

/-- Concrete candidate for C4: d-1 whose requirement e-2 conflicts with the
accumulated constraint e-1. -/
def exRecD : Recipe := ⟨⟨"d", [1]⟩, ⟨[]⟩, ⟨[⟨"e", [2]⟩]⟩, ⟨[]⟩, false⟩

/-- Concrete root recipe for C4: requires d-1 and e-1. -/
def exRoot4 : Recipe := ⟨⟨"root", [1]⟩, ⟨[]⟩, ⟨[⟨"d", [1]⟩, ⟨"e", [1]⟩]⟩, ⟨[]⟩, false⟩

/-- Concrete catalog for C4: the only candidate for d is rejected by the conflict
check. -/
def exCat4 : Catalog := [("d", [exRecD])]

/-- Concrete self-cyclic recipe for C5: a-1 requires a-1. -/
def exCyc : Recipe := ⟨⟨"a", [1]⟩, ⟨[]⟩, ⟨[⟨"a", [1]⟩]⟩, ⟨[]⟩, false⟩

/-- Concrete cyclic catalog for C5. -/
def exCatCyc : Catalog := [("a", [exCyc])]

/-- The constraint accumulator reached inside the cyclic resolve of C5. -/
def cyc1 : PackageList := ⟨[⟨"a", [1]⟩]⟩

theorem mem_rangeInter {a b : VersionRange} {v : Nat} :
    v ∈ rangeInter a b ↔ v ∈ a ∧ v ∈ b := by
  simp [rangeInter, List.mem_filter, List.elem_iff]

theorem rangeIntersects_true_iff {a b : VersionRange} :
    rangeIntersects a b = true ↔ ∃ v, v ∈ a ∧ v ∈ b := by
  simp only [rangeIntersects, Bool.not_eq_true', List.isEmpty_eq_false_iff_exists_mem]
  constructor
  · rintro ⟨v, hv⟩
    exact ⟨v, mem_rangeInter.mp hv⟩
  · rintro ⟨v, hv⟩
    exact ⟨v, mem_rangeInter.mpr hv⟩

theorem rangeIntersects_comm {a b : VersionRange} :
    rangeIntersects a b = rangeIntersects b a := by
  cases h1 : rangeIntersects a b with
  | true =>
    obtain ⟨v, hva, hvb⟩ := rangeIntersects_true_iff.mp h1
    exact (rangeIntersects_true_iff.mpr ⟨v, hvb, hva⟩).symm
  | false =>
    cases h2 : rangeIntersects b a with
    | true =>
      obtain ⟨v, hvb, hva⟩ := rangeIntersects_true_iff.mp h2
      rw [rangeIntersects_true_iff.mpr ⟨v, hva, hvb⟩] at h1
      exact h1.symm
    | false => rfl

theorem PackageRequest.merged_name {p q m : PackageRequest} :
    p.merged q = some m → m.name = p.name ∧ m.range = rangeInter p.range q.range := by
  unfold PackageRequest.merged
  split
  · split
    · intro h
      cases h
      exact ⟨rfl, rfl⟩
    · intro h
      cases h
  · intro h
    cases h

theorem PackageRequest.merged_eq_some {p q : PackageRequest} (hn : p.name = q.name)
    (hi : rangeIntersects p.range q.range = true) :
    p.merged q = some ⟨p.name, rangeInter p.range q.range⟩ := by
  unfold PackageRequest.merged
  rw [if_pos hn, if_pos hi]

theorem PackageRequest.merged_eq_none {p q : PackageRequest} (hn : p.name = q.name)
    (hi : rangeIntersects p.range q.range = false) :
    p.merged q = none := by
  unfold PackageRequest.merged
  rw [if_pos hn, hi]
  rfl

/-- Claim C10: PackageList.is_empty reports the negation of emptiness — it returns
True exactly when the list holds at least one request and False exactly on the empty
list (src/package_list.py lines 28-29 return len(self._pkgs) != 0). -/
theorem c10_is_empty_spec (P : PackageList) :
    (P.is_empty = true ↔ P.pkgs ≠ []) ∧ (P.is_empty = false ↔ P.pkgs = []) := by
  constructor
  · simp [PackageList.is_empty, List.length_eq_zero]
  · simp [PackageList.is_empty, List.length_eq_zero]

theorem gcInner_eq (p : PackageRequest) (rs : List PackageRequest) :
    gcInner p rs =
      (if rs.any (fun r => p.conflicts_with r) then .error Err.typeErrorSubscript
       else .ok ()) := by
  induction rs with
  | nil => rfl
  | cons r rs ih =>
    simp only [gcInner, List.any_cons, ih]
    by_cases h : p.conflicts_with r = true
    · simp [h]
    · simp only [Bool.not_eq_true] at h
      simp [h]

theorem gcLoop_eq (ps rs : List PackageRequest) :
    gcLoop ps rs =
      (if ps.any (fun p => rs.any (fun r => p.conflicts_with r)) then
        .error Err.typeErrorSubscript
       else .ok []) := by
  induction ps with
  | nil => rfl
  | cons p ps ih =>
    simp only [gcLoop, gcInner_eq, List.any_cons]
    by_cases h : rs.any (fun r => p.conflicts_with r) = true
    · simp [h]
    · simp only [Bool.not_eq_true] at h
      simp [h, ih]

/-- Claim C9: get_conflicts returns the empty list when no pair of entries
conflicts, and raises TypeError (conflicts.append[(p, r)] subscripts the bound
method instead of calling it, src/package_list.py line 36) as soon as any
conflicting pair exists; in particular it can never return a non-empty list of
conflicts. -/
theorem c9_get_conflicts_spec (A B : PackageList) :
    A.get_conflicts B =
      (if A.has_conflicts_with B then .error Err.typeErrorSubscript else .ok []) := by
  simp only [PackageList.get_conflicts, PackageList.has_conflicts_with]
  exact gcLoop_eq A.pkgs B.pkgs

theorem dictHas_iff {α : Type} {d : Dict α} {k : String} :
    dictHas d k = true ↔ k ∈ dictKeys d := by
  simp [dictHas, dictKeys, List.any_eq_true, List.mem_map]

theorem dictHas_false_iff {α : Type} {d : Dict α} {k : String} :
    dictHas d k = false ↔ k ∉ dictKeys d := by
  rw [← Bool.not_eq_true, not_iff_not]
  exact dictHas_iff

theorem dictFind_eq_none_iff {α : Type} {d : Dict α} {k : String} :
    dictFind d k = none ↔ k ∉ dictKeys d := by
  simp only [dictFind, Option.map_eq_none', List.find?_eq_none, beq_iff_eq, dictKeys,
    List.mem_map]
  constructor
  · rintro h ⟨kv, hm, he⟩
    exact h kv hm he
  · intro h kv hm he
    exact h ⟨kv, hm, he⟩

theorem dictFind_mem {α : Type} {d : Dict α} {k : String} {v : α}
    (h : dictFind d k = some v) : (k, v) ∈ d := by
  simp only [dictFind, Option.map_eq_some'] at h
  obtain ⟨kv, hf, hv⟩ := h
  have hm := List.mem_of_find?_eq_some hf
  have hp := List.find?_some hf
  simp only [beq_iff_eq] at hp
  obtain ⟨k1, v1⟩ := kv
  simp only at hv hp
  subst hv
  subst hp
  exact hm

theorem dictFind_isSome_of_mem {α : Type} {d : Dict α} {k : String} {v : α}
    (h : (k, v) ∈ d) : ∃ w, dictFind d k = some w := by
  cases hf : dictFind d k with
  | some w => exact ⟨w, rfl⟩
  | none =>
    rw [dictFind_eq_none_iff] at hf
    exact absurd (List.mem_map.mpr ⟨(k, v), h, rfl⟩) hf

theorem dictKeys_insert {α : Type} (d : Dict α) (k : String) (v : α) :
    dictKeys (dictInsert d k v) =
      (if k ∈ dictKeys d then dictKeys d else dictKeys d ++ [k]) := by
  unfold dictInsert
  by_cases h : dictHas d k = true
  · rw [if_pos (dictHas_iff.mp h), if_pos h]
    simp only [dictKeys, List.map_map]
    apply List.map_congr_left
    intro kv _
    simp only [Function.comp_apply]
    by_cases hk : (kv.1 == k) = true
    · simp [hk]
    · simp only [Bool.not_eq_true] at hk
      simp [hk]
  · simp only [Bool.not_eq_true] at h
    rw [if_neg (dictHas_false_iff.mp h)]
    simp only [h, Bool.false_eq_true, if_false]
    simp [dictKeys]

theorem dictFind_insert_self {α : Type} (d : Dict α) (k : String) (v : α) :
    dictFind (dictInsert d k v) k = some v := by
  unfold dictInsert
  by_cases h : dictHas d k = true
  · rw [if_pos h]
    induction d with
    | nil => simp [dictHas] at h
    | cons kv d ih =>
      simp only [dictHas, List.any_cons, Bool.or_eq_true] at h
      by_cases hk : (kv.1 == k) = true
      · simp only [List.map_cons, hk, if_true, dictFind]
        rw [List.find?_cons_of_pos _ (by simpa using hk)]
        rfl
      · simp only [Bool.not_eq_true] at hk
        rcases h with h | h
        · rw [hk] at h; cases h
        · simp only [List.map_cons, hk, Bool.false_eq_true, if_false, dictFind]
          rw [List.find?_cons_of_neg _ (by simp [hk])]
          exact ih h
  · simp only [Bool.not_eq_true] at h
    rw [if_neg (by simp [h])]
    induction d with
    | nil => simp [dictFind]
    | cons kv d ih =>
      simp only [dictHas, List.any_cons, Bool.or_eq_false_iff] at h
      obtain ⟨hk, hd⟩ := h
      simp only [List.cons_append, dictFind]
      rw [List.find?_cons_of_neg _ (by simp_all)]
      exact ih hd

theorem dictFind_insert_ne {α : Type} (d : Dict α) (k k' : String) (v : α)
    (hne : k' ≠ k) : dictFind (dictInsert d k v) k' = dictFind d k' := by
  unfold dictInsert
  by_cases h : dictHas d k = true
  · rw [if_pos h]
    clear h
    induction d with
    | nil => rfl
    | cons kv d ih =>
      by_cases hk : (kv.1 == k) = true
      · have hkv : kv.1 = k := by simpa using hk
        simp only [List.map_cons, hk, if_true, dictFind]
        rw [List.find?_cons_of_neg _ (by simp [hkv]; exact fun e => hne e.symm),
          List.find?_cons_of_neg _ (by simp [hkv]; exact fun e => hne e.symm)]
        exact ih
      · simp only [Bool.not_eq_true] at hk
        by_cases hk2 : (kv.1 == k') = true
        · simp only [List.map_cons, hk, Bool.false_eq_true, if_false, dictFind]
          rw [List.find?_cons_of_pos _ (by simpa using hk2),
            List.find?_cons_of_pos _ (by simpa using hk2)]
        · simp only [Bool.not_eq_true] at hk2
          simp only [List.map_cons, hk, Bool.false_eq_true, if_false, dictFind]
          rw [List.find?_cons_of_neg _ (by simp [hk2]), List.find?_cons_of_neg _ (by simp [hk2])]
          exact ih
  · simp only [Bool.not_eq_true] at h
    rw [if_neg (by simp [h])]
    simp only [dictFind, List.find?_append]
    cases hf : d.find? (fun kv => kv.1 == k') with
    | some kv => simp
    | none =>
      simp only [Option.none_or]
      rw [List.find?_cons_of_neg _ (by simp; exact fun e => hne e.symm)]
      simp [List.find?_nil]

theorem mem_iff_dictFind {α : Type} {d : Dict α} (hnd : (dictKeys d).Nodup)
    (k : String) (v : α) : (k, v) ∈ d ↔ dictFind d k = some v := by
  constructor
  · intro hm
    induction d with
    | nil => cases hm
    | cons kv d ih =>
      simp only [dictKeys, List.map_cons, List.nodup_cons] at hnd
      rcases List.mem_cons.mp hm with he | hm2
      · subst he
        simp only [dictFind]
        rw [List.find?_cons_of_pos _ (by simp)]
        rfl
      · have hk : kv.1 ≠ k := by
          intro he
          exact hnd.1 (he ▸ List.mem_map.mpr ⟨(k, v), hm2, rfl⟩)
        simp only [dictFind]
        rw [List.find?_cons_of_neg _ (by simp [hk])]
        exact ih (by simpa [dictKeys] using hnd.2) hm2
  · exact dictFind_mem

theorem WFDict_insert {d : Dict PackageRequest} (h : WFDict d) {k : String}
    {v : PackageRequest} (hv : v.name = k) : WFDict (dictInsert d k v) := by
  obtain ⟨hnd, hval⟩ := h
  constructor
  · rw [dictKeys_insert]
    by_cases hm : k ∈ dictKeys d
    · rw [if_pos hm]; exact hnd
    · rw [if_neg hm]
      simp only [List.nodup_append, List.nodup_cons, List.not_mem_nil, not_false_iff,
        List.nodup_nil, and_true, true_and, List.disjoint_singleton]
      exact ⟨hnd, by simpa using hm⟩
  · intro kv hm
    unfold dictInsert at hm
    by_cases hh : dictHas d k = true
    · rw [if_pos hh] at hm
      obtain ⟨kv0, hm0, he⟩ := List.mem_map.mp hm
      by_cases hk : (kv0.1 == k) = true
      · rw [if_pos hk] at he
        subst he
        simp only
        rw [hv]
        exact (beq_iff_eq.mp hk).symm
      · simp only [Bool.not_eq_true] at hk
        rw [hk] at he
        simp only [Bool.false_eq_true, if_false] at he
        subst he
        exact hval kv0 hm0
    · simp only [Bool.not_eq_true] at hh
      rw [if_neg (by simp [hh])] at hm
      rcases List.mem_append.mp hm with hm2 | hm2
      · exact hval kv hm2
      · rcases List.mem_singleton.mp hm2 with he
        subst he
        exact hv

theorem WFDict_find_name {d : Dict PackageRequest} (h : WFDict d) {k : String}
    {q : PackageRequest} (hf : dictFind d k = some q) : q.name = k :=
  h.2 (k, q) (dictFind_mem hf)

theorem WF_values_names {d : Dict PackageRequest} (h : WFDict d) :
    (d.map (fun kv => kv.2)).map (fun p => p.name) = dictKeys d := by
  simp only [dictKeys, List.map_map]
  apply List.map_congr_left
  intro kv hm
  exact h.2 kv hm

theorem buildDict_WF_aux (ps : List PackageRequest) :
    ∀ d : Dict PackageRequest, WFDict d →
      WFDict (ps.foldl (fun d p => dictInsert d p.name p) d) := by
  induction ps with
  | nil => intro d h; exact h
  | cons p ps ih =>
    intro d h
    exact ih _ (WFDict_insert h rfl)

theorem buildDict_WF (ps : List PackageRequest) : WFDict (buildDict ps) :=
  buildDict_WF_aux ps [] ⟨List.nodup_nil, by intro kv h; cases h⟩

theorem buildDict_eq_aux (ps : List PackageRequest) :
    ∀ d : Dict PackageRequest, (∀ p ∈ ps, p.name ∉ dictKeys d) →
      (ps.map (fun p => p.name)).Nodup →
      ps.foldl (fun d p => dictInsert d p.name p) d = d ++ ps.map (fun p => (p.name, p)) := by
  induction ps with
  | nil => intro d _ _; simp
  | cons p ps ih =>
    intro d hfresh hnd
    simp only [List.map_cons, List.nodup_cons] at hnd
    have hp : p.name ∉ dictKeys d := hfresh p (List.mem_cons_self p ps)
    have hins : dictInsert d p.name p = d ++ [(p.name, p)] := by
      unfold dictInsert
      rw [if_neg (by intro hh; exact hp (dictHas_iff.mp hh))]
    simp only [List.foldl_cons, hins]
    rw [ih (d ++ [(p.name, p)]) ?_ hnd.2]
    · simp
    · intro p2 hm2
      have hk2 : dictKeys (d ++ [(p.name, p)]) = dictKeys d ++ [p.name] := by
        simp [dictKeys]
      rw [hk2]
      intro hmem
      rcases List.mem_append.mp hmem with hh | hh
      · exact hfresh p2 (List.mem_cons_of_mem p hm2) hh
      · rcases List.mem_singleton.mp hh with he
        exact hnd.1 (he ▸ List.mem_map.mpr ⟨p2, hm2, rfl⟩)

theorem buildDict_eq {ps : List PackageRequest}
    (h : (ps.map (fun p => p.name)).Nodup) :
    buildDict ps = ps.map (fun p => (p.name, p)) := by
  unfold buildDict
  rw [buildDict_eq_aux ps [] (by intro p _; simp [dictKeys]) h]
  simp

theorem buildDict_find {ps : List PackageRequest}
    (h : (ps.map (fun p => p.name)).Nodup) (k : String) :
    dictFind (buildDict ps) k = ps.find? (fun p => p.name == k) := by
  rw [buildDict_eq h]
  clear h
  induction ps with
  | nil => rfl
  | cons p ps ih =>
    by_cases hk : (p.name == k) = true
    · have h2 : List.find? (fun x => x.name == k) (p :: ps) = some p :=
        List.find?_cons_of_pos _ hk
      simp only [List.map_cons, dictFind, h2]
      rw [List.find?_cons_of_pos _ (by simpa using hk)]
      rfl
    · simp only [Bool.not_eq_true] at hk
      have h2 : List.find? (fun x => x.name == k) (p :: ps) = List.find? (fun x => x.name == k) ps :=
        List.find?_cons_of_neg _ (by simp [hk])
      simp only [List.map_cons, dictFind, h2]
      rw [List.find?_cons_of_neg _ (by simp [hk])]
      exact ih

theorem findByName_of_mem_nodup {ps : List PackageRequest}
    (h : (ps.map (fun p => p.name)).Nodup) {p : PackageRequest} (hm : p ∈ ps) :
    ps.find? (fun x => x.name == p.name) = some p := by
  induction ps with
  | nil => cases hm
  | cons q ps ih =>
    simp only [List.map_cons, List.nodup_cons] at h
    rcases List.mem_cons.mp hm with he | hm2
    · subst he
      exact List.find?_cons_of_pos _ (by simp)
    · have hq : q.name ≠ p.name := by
        intro he
        exact h.1 (he ▸ List.mem_map.mpr ⟨p, hm2, rfl⟩)
      rw [List.find?_cons_of_neg _ (by simp [hq])]
      exact ih h.2 hm2

theorem findByName_none {ps : List PackageRequest} {k : String}
    (h : k ∉ ps.map (fun p => p.name)) :
    ps.find? (fun p => p.name == k) = none := by
  rw [List.find?_eq_none]
  intro p hm
  simp only [beq_iff_eq]
  intro he
  exact h (List.mem_map.mpr ⟨p, hm, he⟩)

theorem mem_values_iff {α : Type} {d : Dict α} (hnd : (dictKeys d).Nodup) {v : α} :
    v ∈ d.map (fun kv => kv.2) ↔ ∃ k, dictFind d k = some v := by
  constructor
  · intro hm
    obtain ⟨kv, hkv, he⟩ := List.mem_map.mp hm
    refine ⟨kv.1, ?_⟩
    rw [← mem_iff_dictFind hnd]
    rw [← he]
    exact hkv
  · rintro ⟨k, hf⟩
    exact List.mem_map.mpr ⟨(k, v), dictFind_mem hf, rfl⟩

theorem amLoop_WF (ps : List PackageRequest) :
    ∀ d d' : Dict PackageRequest, WFDict d → amLoop ps d = .ok d' → WFDict d' := by
  induction ps with
  | nil =>
    intro d d' hWF h
    simp only [amLoop] at h
    cases h
    exact hWF
  | cons p ps ih =>
    intro d d' hWF h
    simp only [amLoop] at h
    split at h
    next q hf =>
      split at h
      next hm => cases h
      next m hm =>
        exact ih _ _ (WFDict_insert hWF (PackageRequest.merged_name hm).1) h
    next hf =>
      exact ih _ _ (WFDict_insert hWF rfl) h

theorem amLoop_ok (ps : List PackageRequest) :
    ∀ d : Dict PackageRequest, WFDict d → (ps.map (fun p => p.name)).Nodup →
    (∀ p ∈ ps, ∀ q, dictFind d p.name = some q → rangeIntersects p.range q.range = true) →
    ∃ d', amLoop ps d = .ok d' ∧ WFDict d' ∧
      (∀ k, dictFind d' k =
        (match ps.find? (fun p => p.name == k), dictFind d k with
         | some p, some q => some ⟨p.name, rangeInter p.range q.range⟩
         | some p, none => some p
         | none, o => o)) ∧
      (∀ k, k ∈ dictKeys d' ↔ (k ∈ dictKeys d ∨ k ∈ ps.map (fun p => p.name))) := by
  induction ps with
  | nil =>
    intro d hWF _ _
    refine ⟨d, rfl, hWF, ?_, ?_⟩
    · intro k
      simp [List.find?_nil]
    · intro k
      simp
  | cons p ps ih =>
    intro d hWF hnd hok
    simp only [List.map_cons, List.nodup_cons] at hnd
    cases hf : dictFind d p.name with
    | some q =>
      have hint : rangeIntersects p.range q.range = true :=
        hok p (List.mem_cons_self p ps) q hf
      have hqname : q.name = p.name := WFDict_find_name hWF hf
      have hm : p.merged q = some ⟨p.name, rangeInter p.range q.range⟩ :=
        PackageRequest.merged_eq_some hqname.symm hint
      have hWF2 : WFDict (dictInsert d p.name ⟨p.name, rangeInter p.range q.range⟩) :=
        WFDict_insert hWF rfl
      have hok2 : ∀ p2 ∈ ps, ∀ q2,
          dictFind (dictInsert d p.name ⟨p.name, rangeInter p.range q.range⟩) p2.name = some q2 →
          rangeIntersects p2.range q2.range = true := by
        intro p2 hm2 q2 hf2
        have hne : p2.name ≠ p.name := by
          intro he
          exact hnd.1 (he ▸ List.mem_map.mpr ⟨p2, hm2, rfl⟩)
        rw [dictFind_insert_ne d p.name p2.name _ hne] at hf2
        exact hok p2 (List.mem_cons_of_mem p hm2) q2 hf2
      obtain ⟨d', heq, hWF', hchar, hkeys⟩ := ih _ hWF2 hnd.2 hok2
      refine ⟨d', ?_, hWF', ?_, ?_⟩
      · simp only [amLoop, hf, hm]
        exact heq
      · intro k
        by_cases hk : p.name = k
        · subst hk
          have hfindps : ps.find? (fun x => x.name == p.name) = none :=
            findByName_none hnd.1
          have hfindcons : List.find? (fun x => x.name == p.name) (p :: ps) = some p :=
            List.find?_cons_of_pos _ (by simp)
          rw [hchar p.name, hfindps, hfindcons, hf,
            dictFind_insert_self d p.name ⟨p.name, rangeInter p.range q.range⟩]
        · have hne : k ≠ p.name := fun e => hk e.symm
          have hfindcons : List.find? (fun x => x.name == k) (p :: ps) =
              List.find? (fun x => x.name == k) ps :=
            List.find?_cons_of_neg _ (by simp [hk])
          rw [hchar k, dictFind_insert_ne d p.name k _ hne, hfindcons]
      · intro k
        have hkeys2 : dictKeys (dictInsert d p.name ⟨p.name, rangeInter p.range q.range⟩) =
            dictKeys d := by
          rw [dictKeys_insert]
          rw [if_pos ?_]
          rw [← dictFind_eq_none_iff.not_left]
          · simp [hf]
        rw [hkeys k, hkeys2]
        have hpk : p.name ∈ dictKeys d := by
          rw [← dictFind_eq_none_iff.not_left]
          simp [hf]
        simp only [List.map_cons, List.mem_cons]
        constructor
        · rintro (h | h)
          · exact Or.inl h
          · exact Or.inr (Or.inr h)
        · rintro (h | h | h)
          · exact Or.inl h
          · exact Or.inl (h ▸ hpk)
          · exact Or.inr h
    | none =>
      have hWF2 : WFDict (dictInsert d p.name p) := WFDict_insert hWF rfl
      have hok2 : ∀ p2 ∈ ps, ∀ q2, dictFind (dictInsert d p.name p) p2.name = some q2 →
          rangeIntersects p2.range q2.range = true := by
        intro p2 hm2 q2 hf2
        have hne : p2.name ≠ p.name := by
          intro he
          exact hnd.1 (he ▸ List.mem_map.mpr ⟨p2, hm2, rfl⟩)
        rw [dictFind_insert_ne d p.name p2.name _ hne] at hf2
        exact hok p2 (List.mem_cons_of_mem p hm2) q2 hf2
      obtain ⟨d', heq, hWF', hchar, hkeys⟩ := ih _ hWF2 hnd.2 hok2
      refine ⟨d', ?_, hWF', ?_, ?_⟩
      · simp only [amLoop, hf]
        exact heq
      · intro k
        by_cases hk : p.name = k
        · subst hk
          have hfindps : ps.find? (fun x => x.name == p.name) = none :=
            findByName_none hnd.1
          have hfindcons : List.find? (fun x => x.name == p.name) (p :: ps) = some p :=
            List.find?_cons_of_pos _ (by simp)
          rw [hchar p.name, hfindps, hfindcons, hf, dictFind_insert_self d p.name p]
        · have hne : k ≠ p.name := fun e => hk e.symm
          have hfindcons : List.find? (fun x => x.name == k) (p :: ps) =
              List.find? (fun x => x.name == k) ps :=
            List.find?_cons_of_neg _ (by simp [hk])
          rw [hchar k, dictFind_insert_ne d p.name k _ hne, hfindcons]
      · intro k
        have hpk : p.name ∉ dictKeys d := dictFind_eq_none_iff.mp hf
        have hkeys2 : dictKeys (dictInsert d p.name p) = dictKeys d ++ [p.name] := by
          rw [dictKeys_insert, if_neg hpk]
        rw [hkeys k, hkeys2]
        simp only [List.mem_append, List.mem_singleton, List.map_cons, List.mem_cons]
        tauto

theorem amLoop_err (ps : List PackageRequest) :
    ∀ d : Dict PackageRequest, WFDict d → (ps.map (fun p => p.name)).Nodup →
    (∃ p ∈ ps, ∃ q, dictFind d p.name = some q ∧ rangeIntersects p.range q.range = false) →
    ∃ p q, amLoop ps d = .error (.versionConflict p q) := by
  induction ps with
  | nil =>
    intro d _ _ hbad
    obtain ⟨p, hm, _⟩ := hbad
    cases hm
  | cons p ps ih =>
    intro d hWF hnd hbad
    simp only [List.map_cons, List.nodup_cons] at hnd
    obtain ⟨pb, hmb, qb, hfb, hib⟩ := hbad
    cases hf : dictFind d p.name with
    | some q =>
      have hqname : q.name = p.name := WFDict_find_name hWF hf
      cases hint : rangeIntersects p.range q.range with
      | false =>
        refine ⟨p, q, ?_⟩
        simp only [amLoop, hf, PackageRequest.merged_eq_none hqname.symm hint]
      | true =>
        have hm : p.merged q = some ⟨p.name, rangeInter p.range q.range⟩ :=
          PackageRequest.merged_eq_some hqname.symm hint
        have hWF2 : WFDict (dictInsert d p.name ⟨p.name, rangeInter p.range q.range⟩) :=
          WFDict_insert hWF rfl
        rcases List.mem_cons.mp hmb with he | hm2
        · subst he
          rw [hfb] at hf
          cases hf
          rw [hib] at hint
          cases hint
        · have hne : pb.name ≠ p.name := by
            intro he
            exact hnd.1 (he ▸ List.mem_map.mpr ⟨pb, hm2, rfl⟩)
          have hbad2 : ∃ p2 ∈ ps, ∃ q2,
              dictFind (dictInsert d p.name ⟨p.name, rangeInter p.range q.range⟩) p2.name = some q2 ∧
              rangeIntersects p2.range q2.range = false := by
            refine ⟨pb, hm2, qb, ?_, hib⟩
            rw [dictFind_insert_ne d p.name pb.name _ hne]
            exact hfb
          obtain ⟨p2, q2, herr⟩ := ih _ hWF2 hnd.2 hbad2
          refine ⟨p2, q2, ?_⟩
          simp only [amLoop, hf, hm]
          exact herr
    | none =>
      have hWF2 : WFDict (dictInsert d p.name p) := WFDict_insert hWF rfl
      rcases List.mem_cons.mp hmb with he | hm2
      · subst he
        rw [hfb] at hf
        cases hf
      · have hne : pb.name ≠ p.name := by
          intro he
          exact hnd.1 (he ▸ List.mem_map.mpr ⟨pb, hm2, rfl⟩)
        have hbad2 : ∃ p2 ∈ ps, ∃ q2, dictFind (dictInsert d p.name p) p2.name = some q2 ∧
            rangeIntersects p2.range q2.range = false := by
          refine ⟨pb, hm2, qb, ?_, hib⟩
          rw [dictFind_insert_ne d p.name pb.name _ hne]
          exact hfb
        obtain ⟨p2, q2, herr⟩ := ih _ hWF2 hnd.2 hbad2
        refine ⟨p2, q2, ?_⟩
        simp only [amLoop, hf]
        exact herr

/-- Claim C6 (confirmed, under the constraint-set invariant of unique names):
additive_merged yields exactly the union of names, intersecting the range of every
shared name and keeping one-sided entries unchanged, and fails with VersionConflict
exactly when some shared name has an empty intersection
(src/package_list.py lines 47-63). -/
theorem c6_additive_merged_spec (A B : PackageList)
    (hA : A.names.Nodup) (hB : B.names.Nodup) :
    ((∀ p ∈ A.pkgs, ∀ q ∈ B.pkgs, p.name = q.name → rangeIntersects p.range q.range = true) →
      ∃ C, A.additive_merged B = .ok C ∧
        (∀ n, n ∈ C.names ↔ (n ∈ A.names ∨ n ∈ B.names)) ∧
        (∀ p ∈ A.pkgs, ∀ q ∈ B.pkgs, p.name = q.name →
          ∃ r ∈ C.pkgs, r.name = p.name ∧ ∀ v, v ∈ r.range ↔ (v ∈ p.range ∧ v ∈ q.range)) ∧
        (∀ p ∈ A.pkgs, p.name ∉ B.names → p ∈ C.pkgs) ∧
        (∀ q ∈ B.pkgs, q.name ∉ A.names → q ∈ C.pkgs))
    ∧ ((∃ p ∈ A.pkgs, ∃ q ∈ B.pkgs, p.name = q.name ∧ rangeIntersects p.range q.range = false) →
        ∃ p q, A.additive_merged B = .error (Err.versionConflict p q)) := by
  have hWF0 : WFDict (buildDict A.pkgs) := buildDict_WF A.pkgs
  have hFind0 : ∀ k, dictFind (buildDict A.pkgs) k = A.pkgs.find? (fun p => p.name == k) :=
    buildDict_find hA
  have hkeys0 : dictKeys (buildDict A.pkgs) = A.names := by
    rw [buildDict_eq hA]
    simp [dictKeys, List.map_map, PackageList.names]
  constructor
  · intro hok
    have hok2 : ∀ p ∈ B.pkgs, ∀ q, dictFind (buildDict A.pkgs) p.name = some q →
        rangeIntersects p.range q.range = true := by
      intro p hp q hfq
      rw [hFind0 p.name] at hfq
      have hqmem := List.mem_of_find?_eq_some hfq
      have hqname : q.name = p.name := by simpa using List.find?_some hfq
      rw [rangeIntersects_comm]
      exact hok q hqmem p hp hqname
    obtain ⟨d', heq, hWF', hchar, hkeysIff⟩ := amLoop_ok B.pkgs (buildDict A.pkgs) hWF0 hB hok2
    refine ⟨⟨d'.map (fun kv => kv.2)⟩, ?_, ?_, ?_, ?_, ?_⟩
    · simp only [PackageList.additive_merged, heq]
    · intro n
      have hnames : PackageList.names ⟨d'.map (fun kv => kv.2)⟩ = dictKeys d' :=
        WF_values_names hWF'
      rw [hnames]
      rw [hkeysIff n, hkeys0]
      exact Iff.rfl
    · intro p hp q hq hname
      have hfB : B.pkgs.find? (fun x => x.name == p.name) = some q := by
        have := findByName_of_mem_nodup hB hq
        rw [← hname] at this
        exact this
      have hfA : dictFind (buildDict A.pkgs) p.name = some p := by
        rw [hFind0 p.name]
        exact findByName_of_mem_nodup hA hp
      have h1 := hchar p.name
      rw [hfB, hfA] at h1
      have h2 : dictFind d' p.name = some ⟨q.name, rangeInter q.range p.range⟩ := h1
      refine ⟨⟨q.name, rangeInter q.range p.range⟩, ?_, ?_, ?_⟩
      · exact (mem_values_iff hWF'.1).mpr ⟨p.name, h2⟩
      · exact hname.symm
      · intro v
        rw [mem_rangeInter]
        exact ⟨fun h => ⟨h.2, h.1⟩, fun h => ⟨h.2, h.1⟩⟩
    · intro p hp hnotB
      have hfB : B.pkgs.find? (fun x => x.name == p.name) = none := findByName_none hnotB
      have hfA : dictFind (buildDict A.pkgs) p.name = some p := by
        rw [hFind0 p.name]
        exact findByName_of_mem_nodup hA hp
      have h1 := hchar p.name
      rw [hfB, hfA] at h1
      have h2 : dictFind d' p.name = some p := h1
      exact (mem_values_iff hWF'.1).mpr ⟨p.name, h2⟩
    · intro q hq hnotA
      have hfB : B.pkgs.find? (fun x => x.name == q.name) = some q :=
        findByName_of_mem_nodup hB hq
      have hfA : dictFind (buildDict A.pkgs) q.name = none := by
        rw [hFind0 q.name]
        exact findByName_none hnotA
      have h1 := hchar q.name
      rw [hfB, hfA] at h1
      have h2 : dictFind d' q.name = some q := h1
      exact (mem_values_iff hWF'.1).mpr ⟨q.name, h2⟩
  · rintro ⟨p, hp, q, hq, hname, hni⟩
    have hbad : ∃ p2 ∈ B.pkgs, ∃ q2, dictFind (buildDict A.pkgs) p2.name = some q2 ∧
        rangeIntersects p2.range q2.range = false := by
      refine ⟨q, hq, p, ?_, ?_⟩
      · rw [hFind0 q.name, ← hname]
        exact findByName_of_mem_nodup hA hp
      · rw [rangeIntersects_comm]
        exact hni
    obtain ⟨p2, q2, herr⟩ := amLoop_err B.pkgs (buildDict A.pkgs) hWF0 hB hbad
    refine ⟨p2, q2, ?_⟩
    simp only [PackageList.additive_merged, herr]

/-- Witness for C6 at a concrete input: a-{1,2} merged with [a-{2,3}, b-{5}]. -/
theorem c6_additive_merged_spec_witness :
    ∃ C, PackageList.additive_merged ⟨[⟨"a", [1, 2]⟩]⟩ ⟨[⟨"a", [2, 3]⟩, ⟨"b", [5]⟩]⟩ = .ok C ∧
      (∀ n, n ∈ C.names ↔
        (n ∈ PackageList.names ⟨[⟨"a", [1, 2]⟩]⟩ ∨ n ∈ PackageList.names ⟨[⟨"a", [2, 3]⟩, ⟨"b", [5]⟩]⟩)) ∧
      (∀ p ∈ PackageList.pkgs ⟨[⟨"a", [1, 2]⟩]⟩, ∀ q ∈ PackageList.pkgs ⟨[⟨"a", [2, 3]⟩, ⟨"b", [5]⟩]⟩,
        p.name = q.name →
        ∃ r ∈ C.pkgs, r.name = p.name ∧ ∀ v, v ∈ r.range ↔ (v ∈ p.range ∧ v ∈ q.range)) ∧
      (∀ p ∈ PackageList.pkgs ⟨[⟨"a", [1, 2]⟩]⟩,
        p.name ∉ PackageList.names ⟨[⟨"a", [2, 3]⟩, ⟨"b", [5]⟩]⟩ → p ∈ C.pkgs) ∧
      (∀ q ∈ PackageList.pkgs ⟨[⟨"a", [2, 3]⟩, ⟨"b", [5]⟩]⟩,
        q.name ∉ PackageList.names ⟨[⟨"a", [1, 2]⟩]⟩ → q ∈ C.pkgs) :=
  (c6_additive_merged_spec ⟨[⟨"a", [1, 2]⟩]⟩ ⟨[⟨"a", [2, 3]⟩, ⟨"b", [5]⟩]⟩
    (by decide) (by decide)).1 (by decide)

theorem miTransfer_name (d : Dict PackageRequest) (p : PackageRequest) :
    (miTransfer d p).name = p.name := by
  unfold miTransfer
  cases dictFind d p.name with
  | some q => rfl
  | none => rfl

theorem miLoop_ok (ps : List PackageRequest) :
    ∀ d : Dict PackageRequest, WFDict d →
    (∀ p ∈ ps, ∀ q, dictFind d p.name = some q → rangeIntersects p.range q.range = true) →
    miLoop ps d = .ok (ps.map (miTransfer d)) := by
  induction ps with
  | nil => intro d _ _; rfl
  | cons p ps ih =>
    intro d hWF hok
    cases hf : dictFind d p.name with
    | some q =>
      have hqname : q.name = p.name := WFDict_find_name hWF hf
      have hint : rangeIntersects p.range q.range = true :=
        hok p (List.mem_cons_self p ps) q hf
      have hm : p.merged q = some ⟨p.name, rangeInter p.range q.range⟩ :=
        PackageRequest.merged_eq_some hqname.symm hint
      have htr : miTransfer d p = ⟨p.name, rangeInter p.range q.range⟩ := by
        simp only [miTransfer, hf]
      have hrec := ih d hWF (fun p2 h2 => hok p2 (List.mem_cons_of_mem p h2))
      simp only [miLoop, hf, hm, hrec, List.map_cons, htr]
    | none =>
      have htr : miTransfer d p = p := by
        simp only [miTransfer, hf]
      have hrec := ih d hWF (fun p2 h2 => hok p2 (List.mem_cons_of_mem p h2))
      simp only [miLoop, hf, hrec, List.map_cons, htr]

theorem miLoop_err (ps : List PackageRequest) :
    ∀ d : Dict PackageRequest, WFDict d →
    (∃ p ∈ ps, ∃ q, dictFind d p.name = some q ∧ rangeIntersects p.range q.range = false) →
    ∃ p q, miLoop ps d = .error (.versionConflict p q) := by
  induction ps with
  | nil =>
    intro d _ hbad
    obtain ⟨p, hm, _⟩ := hbad
    cases hm
  | cons p ps ih =>
    intro d hWF hbad
    obtain ⟨pb, hmb, qb, hfb, hib⟩ := hbad
    cases hf : dictFind d p.name with
    | some q =>
      have hqname : q.name = p.name := WFDict_find_name hWF hf
      cases hint : rangeIntersects p.range q.range with
      | false =>
        refine ⟨p, q, ?_⟩
        simp only [miLoop, hf, PackageRequest.merged_eq_none hqname.symm hint]
      | true =>
        have hm : p.merged q = some ⟨p.name, rangeInter p.range q.range⟩ :=
          PackageRequest.merged_eq_some hqname.symm hint
        rcases List.mem_cons.mp hmb with he | hm2
        · subst he
          rw [hfb] at hf
          cases hf
          rw [hib] at hint
          cases hint
        · obtain ⟨p2, q2, herr⟩ := ih d hWF ⟨pb, hm2, qb, hfb, hib⟩
          refine ⟨p2, q2, ?_⟩
          simp only [miLoop, hf, hm, herr]
    | none =>
      rcases List.mem_cons.mp hmb with he | hm2
      · subst he
        rw [hfb] at hf
        cases hf
      · obtain ⟨p2, q2, herr⟩ := ih d hWF ⟨pb, hm2, qb, hfb, hib⟩
        refine ⟨p2, q2, ?_⟩
        simp only [miLoop, hf, herr]

/-- Claim C7 (confirmed, under the unique-name invariant for the rhs): merged_into
keeps exactly the names of self in order, passes names absent from rhs through
unchanged, intersects the range of names present in both, and fails with
VersionConflict when a shared name has an empty intersection
(src/package_list.py lines 83-100). -/
theorem c7_merged_into_spec (A B : PackageList) (hB : B.names.Nodup) :
    ((∀ p ∈ A.pkgs, ∀ q ∈ B.pkgs, p.name = q.name → rangeIntersects p.range q.range = true) →
      ∃ C, A.merged_into B = .ok C ∧
        C.names = A.names ∧
        (∀ p ∈ A.pkgs, p.name ∉ B.names → p ∈ C.pkgs) ∧
        (∀ p ∈ A.pkgs, ∀ q ∈ B.pkgs, p.name = q.name →
          ∃ r ∈ C.pkgs, r.name = p.name ∧ ∀ v, v ∈ r.range ↔ (v ∈ p.range ∧ v ∈ q.range)))
    ∧ ((∃ p ∈ A.pkgs, ∃ q ∈ B.pkgs, p.name = q.name ∧ rangeIntersects p.range q.range = false) →
        ∃ p q, A.merged_into B = .error (Err.versionConflict p q)) := by
  have hWF0 : WFDict (buildDict B.pkgs) := buildDict_WF B.pkgs
  have hFind0 : ∀ k, dictFind (buildDict B.pkgs) k = B.pkgs.find? (fun p => p.name == k) :=
    buildDict_find hB
  constructor
  · intro hok
    have hok2 : ∀ p ∈ A.pkgs, ∀ q, dictFind (buildDict B.pkgs) p.name = some q →
        rangeIntersects p.range q.range = true := by
      intro p hp q hfq
      rw [hFind0 p.name] at hfq
      have hqmem := List.mem_of_find?_eq_some hfq
      have hqname : q.name = p.name := by simpa using List.find?_some hfq
      exact hok p hp q hqmem hqname.symm
    have heq := miLoop_ok A.pkgs (buildDict B.pkgs) hWF0 hok2
    refine ⟨⟨A.pkgs.map (miTransfer (buildDict B.pkgs))⟩, ?_, ?_, ?_, ?_⟩
    · simp only [PackageList.merged_into, heq]
    · simp only [PackageList.names, List.map_map]
      apply List.map_congr_left
      intro p _
      exact miTransfer_name _ p
    · intro p hp hnot
      have hf : dictFind (buildDict B.pkgs) p.name = none := by
        rw [hFind0 p.name]
        exact findByName_none hnot
      have htr : miTransfer (buildDict B.pkgs) p = p := by
        simp only [miTransfer, hf]
      exact List.mem_map.mpr ⟨p, hp, htr⟩
    · intro p hp q hq hname
      have hf : dictFind (buildDict B.pkgs) p.name = some q := by
        rw [hFind0 p.name]
        have h3 := findByName_of_mem_nodup hB hq
        rw [← hname] at h3
        exact h3
      have htr : miTransfer (buildDict B.pkgs) p = ⟨p.name, rangeInter p.range q.range⟩ := by
        simp only [miTransfer, hf]
      refine ⟨⟨p.name, rangeInter p.range q.range⟩, ?_, rfl, ?_⟩
      · exact List.mem_map.mpr ⟨p, hp, htr⟩
      · intro v
        exact mem_rangeInter
  · rintro ⟨p, hp, q, hq, hname, hni⟩
    have hf : dictFind (buildDict B.pkgs) p.name = some q := by
      rw [hFind0 p.name]
      have := findByName_of_mem_nodup hB hq
      rw [← hname] at this
      exact this
    obtain ⟨p2, q2, herr⟩ := miLoop_err A.pkgs (buildDict B.pkgs) hWF0 ⟨p, hp, q, hf, hni⟩
    refine ⟨p2, q2, ?_⟩
    simp only [PackageList.merged_into, herr]

/-- Witness for C7 at a concrete input: [a-{1,2}, c-{7}] merged into
[a-{2,3}, b-{5}]. -/
theorem c7_merged_into_spec_witness :
    ∃ C, PackageList.merged_into ⟨[⟨"a", [1, 2]⟩, ⟨"c", [7]⟩]⟩ ⟨[⟨"a", [2, 3]⟩, ⟨"b", [5]⟩]⟩ = .ok C ∧
      C.names = PackageList.names ⟨[⟨"a", [1, 2]⟩, ⟨"c", [7]⟩]⟩ ∧
      (∀ p ∈ PackageList.pkgs ⟨[⟨"a", [1, 2]⟩, ⟨"c", [7]⟩]⟩,
        p.name ∉ PackageList.names ⟨[⟨"a", [2, 3]⟩, ⟨"b", [5]⟩]⟩ → p ∈ C.pkgs) ∧
      (∀ p ∈ PackageList.pkgs ⟨[⟨"a", [1, 2]⟩, ⟨"c", [7]⟩]⟩,
        ∀ q ∈ PackageList.pkgs ⟨[⟨"a", [2, 3]⟩, ⟨"b", [5]⟩]⟩, p.name = q.name →
        ∃ r ∈ C.pkgs, r.name = p.name ∧ ∀ v, v ∈ r.range ↔ (v ∈ p.range ∧ v ∈ q.range)) :=
  (c7_merged_into_spec ⟨[⟨"a", [1, 2]⟩, ⟨"c", [7]⟩]⟩ ⟨[⟨"a", [2, 3]⟩, ⟨"b", [5]⟩]⟩
    (by decide)).1 (by decide)

theorem mLoop_names_sublist (ps : List PackageRequest) :
    ∀ d l, mLoop ps d = .ok l →
      List.Sublist (l.map (fun p => p.name)) (ps.map (fun p => p.name)) := by
  induction ps with
  | nil =>
    intro d l h
    simp only [mLoop] at h
    cases h
    simp
  | cons p ps ih =>
    intro d l h
    simp only [mLoop] at h
    split at h
    next q hf =>
      split at h
      next => cases h
      next m hm =>
        split at h
        next => cases h
        next l2 heq2 =>
          cases h
          simp only [List.map_cons]
          have hname : m.name = p.name := (PackageRequest.merged_name hm).1
          rw [hname]
          exact List.Sublist.cons₂ p.name (ih d l2 heq2)
    next hf =>
      exact List.Sublist.trans (ih d l h) (List.sublist_cons_self p.name _)

theorem miLoop_names (ps : List PackageRequest) :
    ∀ d l, miLoop ps d = .ok l →
      l.map (fun p => p.name) = ps.map (fun p => p.name) := by
  induction ps with
  | nil =>
    intro d l h
    simp only [miLoop] at h
    cases h
    rfl
  | cons p ps ih =>
    intro d l h
    simp only [miLoop] at h
    split at h
    next q hf =>
      split at h
      next => cases h
      next m hm =>
        split at h
        next => cases h
        next l2 heq2 =>
          cases h
          simp only [List.map_cons]
          rw [(PackageRequest.merged_name hm).1]
          rw [ih d l2 heq2]
    next hf =>
      split at h
      next => cases h
      next l2 heq2 =>
        cases h
        simp only [List.map_cons]
        rw [ih d l2 heq2]

theorem acLoop_names (rhs : PackageRequest) (ps : List PackageRequest) :
    ∀ l found, acLoop rhs ps = .ok (l, found) →
      l.map (fun p => p.name) = ps.map (fun p => p.name) ∧
      (found = true ↔ rhs.name ∈ ps.map (fun p => p.name)) := by
  induction ps with
  | nil =>
    intro l found h
    simp only [acLoop] at h
    cases h
    simp
  | cons p ps ih =>
    intro l found h
    simp only [acLoop] at h
    split at h
    next hn =>
      split at h
      next => cases h
      next m hm =>
        split at h
        next => cases h
        next l2 f2 heq2 =>
          cases h
          obtain ⟨hnames, _⟩ := ih _ _ heq2
          constructor
          · simp only [List.map_cons]
            rw [(PackageRequest.merged_name hm).1, hnames]
          · simp only [List.map_cons, List.mem_cons]
            exact ⟨fun _ => Or.inl hn, fun _ => trivial⟩
    next hn =>
      split at h
      next => cases h
      next l2 f2 heq2 =>
        cases h
        obtain ⟨hnames, hfound⟩ := ih _ _ heq2
        constructor
        · simp only [List.map_cons]
          rw [hnames]
        · simp only [List.map_cons, List.mem_cons]
          rw [hfound]
          constructor
          · exact fun h2 => Or.inr h2
          · rintro (h2 | h2)
            · exact absurd h2 hn
            · exact h2

/-- Counterexample to claim C8: the PackageList constructor and the concatenation
operator do not enforce the unique-name invariant — concatenating two literal
constraint sets that both name family a yields a reachable set with a duplicated
name (src/package_list.py lines 8-18 and 161-162). -/
theorem c8_counterexample :
    ¬ (PackageList.names (PackageList.append ⟨[⟨"a", [1]⟩]⟩ ⟨[⟨"a", [2]⟩]⟩)).Nodup := by
  decide

/-- Claim C8 as amended: the merge operations do preserve (additive_merged even
establishes) the unique-name invariant — additive_merged unconditionally, merged
when rhs has unique names, merged_into/constrained/add_constraint when self has
unique names — but the literal-list constructor and the concatenation operator
reproduce their inputs verbatim and so only preserve uniqueness when the combined
input names are already unique. -/
theorem c8_unique_names_amended :
    (∀ (A B C : PackageList), A.additive_merged B = .ok C → C.names.Nodup)
    ∧ (∀ (A B C : PackageList), B.names.Nodup → A.merged B = .ok C → C.names.Nodup)
    ∧ (∀ (A B C : PackageList), A.names.Nodup → A.merged_into B = .ok C → C.names.Nodup)
    ∧ (∀ (A : PackageList) (r : PackageRequest), A.names.Nodup → (A.constrained r).names.Nodup)
    ∧ (∀ (A C : PackageList) (r : PackageRequest), A.names.Nodup →
        A.add_constraint r = .ok C → C.names.Nodup)
    ∧ (∀ (A B : PackageList), (A.names ++ B.names).Nodup → (A.append B).names.Nodup)
    ∧ (∀ l : List PackageRequest, PackageList.names ⟨l⟩ = l.map (fun p => p.name)) := by
  refine ⟨?_, ?_, ?_, ?_, ?_, ?_, ?_⟩
  · intro A B C h
    simp only [PackageList.additive_merged] at h
    split at h
    next => cases h
    next d' heq =>
      cases h
      have hWF' := amLoop_WF B.pkgs (buildDict A.pkgs) d' (buildDict_WF A.pkgs) heq
      have := WF_values_names hWF'
      simp only [PackageList.names] at this ⊢
      rw [this]
      exact hWF'.1
  · intro A B C hB h
    simp only [PackageList.merged] at h
    split at h
    next => cases h
    next l heq =>
      cases h
      have hsub := mLoop_names_sublist B.pkgs (buildDict A.pkgs) l heq
      simp only [PackageList.names] at hB ⊢
      exact List.Nodup.sublist hsub hB
  · intro A B C hA h
    simp only [PackageList.merged_into] at h
    split at h
    next => cases h
    next l heq =>
      cases h
      have hn := miLoop_names A.pkgs (buildDict B.pkgs) l heq
      simp only [PackageList.names] at hA ⊢
      rw [hn]
      exact hA
  · intro A r hA
    simp only [PackageList.names, PackageList.constrained, List.map_map] at hA ⊢
    have : (List.map ((fun p => p.name) ∘ fun p =>
        if r.name = p.name then ⟨p.name, rangeInter p.range r.range⟩ else p) A.pkgs) =
        List.map (fun p => p.name) A.pkgs := by
      apply List.map_congr_left
      intro p _
      simp only [Function.comp_apply]
      split
      · rfl
      · rfl
    rw [this]
    exact hA
  · intro A C r hA h
    simp only [PackageList.add_constraint] at h
    split at h
    next => cases h
    next l found heq =>
      cases h
      obtain ⟨hnames, hfound⟩ := acLoop_names r A.pkgs l found heq
      simp only [PackageList.names] at hA ⊢
      by_cases hf : found = true
      · rw [if_pos hf, hnames]
        exact hA
      · simp only [Bool.not_eq_true] at hf
        rw [hf]
        simp only [Bool.false_eq_true, if_false, List.map_append, hnames, List.map_cons,
          List.map_nil]
        have hnot : r.name ∉ A.pkgs.map (fun p => p.name) := by
          intro hmem
          rw [← hfound] at hmem
          rw [hf] at hmem
          cases hmem
        simp only [List.nodup_append, List.nodup_cons, List.not_mem_nil, not_false_iff,
          List.nodup_nil, and_true, true_and, List.disjoint_singleton]
        exact ⟨hA, hnot⟩
  · intro A B h
    simp only [PackageList.names, PackageList.append, List.map_append] at h ⊢
    exact h
  · intro l
    rfl

/-- Witness for the amended C8 at concrete inputs: an additive merge result and an
add_constraint result both carry unique names. -/
theorem c8_unique_names_amended_witness :
    (PackageList.names ⟨[⟨"a", [2]⟩, ⟨"b", [5]⟩]⟩).Nodup ∧
    (PackageList.names ⟨[⟨"a", [1]⟩, ⟨"c", [3]⟩]⟩).Nodup :=
  ⟨c8_unique_names_amended.1 ⟨[⟨"a", [1, 2]⟩]⟩ ⟨[⟨"a", [2, 3]⟩, ⟨"b", [5]⟩]⟩ _ (by rfl),
   c8_unique_names_amended.2.2.2.2.1 ⟨[⟨"a", [1]⟩]⟩ _ ⟨"c", [3]⟩ (by decide) (by rfl)⟩

/-- Claim C3 behaviour at the failing input: resolving a recipe that requires family
m against a catalog with no entry for m fails, but with the generic
RuntimeError("Could not find a recipe for ...") of src/rez-cook.py line 131 — the
RecipeNotFound class defined at lines 29-30 is never raised anywhere in the code. -/
theorem c3_missing_recipe_code_bug :
    build_dependency_tree [] 10 exRoot3 ⟨[]⟩ [] = .error (.runtimeNotFound ⟨"m", [1]⟩) := rfl

/-- Claim C4 behaviour at the failing input: when the only candidate for required
family d is rejected by the recursive conflict check, resolution fails carrying the
accumulated failed_dependency_chains, but with the generic
RuntimeError("Could not find suitable recipe for ...") of src/rez-cook.py line 175 —
the DependencyConflict class defined at lines 33-34 is never raised anywhere. -/
theorem c4_all_candidates_conflict_code_bug :
    build_dependency_tree exCat4 10 exRoot4 ⟨[]⟩ [] =
      .error (.runtimeNoSuitable ⟨"d", [1]⟩ [[ChainEntry.flag true]]) := rfl

theorem hdc_zero (cat : Catalog) (r : Recipe) (c : PackageList) (ch : Chain) :
    has_dependency_conflict cat 0 r c ch = .error .outOfFuel := rfl

theorem hdc_succ (cat : Catalog) (n : Nat) :
    has_dependency_conflict cat (n + 1) = hdcStep cat (has_dependency_conflict cat n) := rfl

theorem bdt_zero (cat : Catalog) (r : Recipe) (c : PackageList) (ch : Chain) :
    build_dependency_tree cat 0 r c ch = .error .outOfFuel := rfl

theorem bdt_succ (cat : Catalog) (n : Nat) :
    build_dependency_tree cat (n + 1) =
      bdtStep cat (build_dependency_tree cat n) (has_dependency_conflict cat n) := rfl

theorem hdc_cycle (n : Nat) :
    ∀ ch : Chain, has_dependency_conflict exCatCyc n exCyc cyc1 ch = .error .outOfFuel := by
  induction n with
  | zero => intro ch; rfl
  | succ n ih =>
    intro ch
    rw [hdc_succ]
    have h1 : exCyc.conflicts_with_package_list cyc1 = false := rfl
    have h2 : PackageList.additive_merged exCyc.build_requires exCyc.requires =
        .ok ⟨[⟨"a", [1]⟩]⟩ := rfl
    have h3 : dictFind exCatCyc "a" = some [exCyc] := rfl
    have h4 : PackageRequest.conflicts_with exCyc.pkg ⟨"a", [1]⟩ = false := rfl
    simp only [hdcStep, h1, Bool.false_eq_true, if_false, h2]
    simp only [hdcPkgLoop, h3, hdcRecLoop, h4, ih ch]
    simp

/-- Claim C5 behaviour at the failing input: the resolver has no cycle detection —
the chain argument is purely diagnostic and no CyclicDependency error exists
anywhere in the code — so on the self-cyclic catalog {a: [a-1 requiring a-1]} the
recursion exhausts every finite budget: for every fuel value the embedded
build_dependency_tree ends in outOfFuel instead of any normal result. -/
theorem c5_cycle_unbounded_recursion :
    ∀ fuel : Nat, build_dependency_tree exCatCyc fuel exCyc ⟨[]⟩ [] = .error .outOfFuel := by
  intro fuel
  cases fuel with
  | zero => rfl
  | succ n =>
    rw [bdt_succ]
    have h2 : PackageList.additive_merged exCyc.build_requires exCyc.requires =
        .ok ⟨[⟨"a", [1]⟩]⟩ := rfl
    have h3 : PackageList.additive_merged ⟨[⟨"a", [1]⟩]⟩ exCyc.variant =
        .ok ⟨[⟨"a", [1]⟩]⟩ := rfl
    have h4 : addConstraints (PackageList.pkgs ⟨[⟨"a", [1]⟩]⟩) ⟨[]⟩ = .ok cyc1 := rfl
    have h5 : dictFind exCatCyc "a" = some [exCyc] := rfl
    have h6 : PackageRequest.conflicts_with exCyc.pkg ⟨"a", [1]⟩ = false := rfl
    simp only [bdtStep, h2, h3, h4]
    simp only [bdtPkgLoop, h5, bdtRecLoop, h6, Bool.false_eq_true, if_false,
      hdc_cycle n []]

/-- Counterexample to claim C1: the claim demands acceptance only when EVERY entry
of the merged requirement list has a viable catalog alternative (specAccepts), but
has_dependency_conflict clears its single all_conflict flag as soon as ANY entry has
one: here dependency b of recipe r has no catalog entry at all, the claimed
predicate therefore rejects, yet the code accepts (returns False, no conflict). -/
theorem c1_counterexample :
    has_dependency_conflict exCat1 5 exRecipeR ⟨[]⟩ [] = .ok (false, []) ∧
    specAccepts exCat1 5 exRecipeR ⟨[]⟩ = false := ⟨rfl, rfl⟩

theorem hdcRecLoop_chain_irrel (next : Recipe → PackageList → Chain → Except Err (Bool × Chain))
    (hnext : ∀ r c ch1 ch2, sameOutcome (next r c ch1) (next r c ch2))
    (pkg : PackageRequest) (recs : List Recipe) (c : PackageList) :
    ∀ ac ch1 ch2, sameOutcome (hdcRecLoop next pkg recs c ch1 ac) (hdcRecLoop next pkg recs c ch2 ac) := by
  induction recs with
  | nil =>
    intro ac ch1 ch2
    exact Or.inr ⟨ac, ch1, ch2, rfl, rfl⟩
  | cons r rs ih =>
    intro ac ch1 ch2
    simp only [hdcRecLoop]
    by_cases hvc : r.pkg.conflicts_with pkg = true
    · simp only [hvc, if_true]
      exact ih ac ch1 ch2
    · simp only [Bool.not_eq_true] at hvc
      simp only [hvc, Bool.false_eq_true, if_false]
      rcases hnext r c ch1 ch2 with ⟨e, he1, he2⟩ | ⟨b, c1, c2, h1, h2⟩
      · rw [he1, he2]
        exact Or.inl ⟨e, rfl, rfl⟩
      · rw [h1, h2]
        exact ih (if b then ac else false) c1 c2

theorem hdcPkgLoop_chain_irrel (cat : Catalog)
    (next : Recipe → PackageList → Chain → Except Err (Bool × Chain))
    (hnext : ∀ r c ch1 ch2, sameOutcome (next r c ch1) (next r c ch2))
    (ps : List PackageRequest) (c : PackageList) :
    ∀ ac ch1 ch2, sameOutcome (hdcPkgLoop cat next ps c ch1 ac) (hdcPkgLoop cat next ps c ch2 ac) := by
  induction ps with
  | nil =>
    intro ac ch1 ch2
    exact Or.inr ⟨ac, ch1, ch2, rfl, rfl⟩
  | cons pkg ps ih =>
    intro ac ch1 ch2
    cases hcf : dictFind cat pkg.name with
    | none =>
      have e1 : hdcPkgLoop cat next (pkg :: ps) c ch1 ac = hdcPkgLoop cat next ps c ch1 ac := by
        simp only [hdcPkgLoop, hcf]
      have e2 : hdcPkgLoop cat next (pkg :: ps) c ch2 ac = hdcPkgLoop cat next ps c ch2 ac := by
        simp only [hdcPkgLoop, hcf]
      rw [e1, e2]
      exact ih ac ch1 ch2
    | some recs =>
      rcases hdcRecLoop_chain_irrel next hnext pkg recs c ac ch1 ch2 with
        ⟨e, he1, he2⟩ | ⟨b, c1, c2, h1, h2⟩
      · have e1 : hdcPkgLoop cat next (pkg :: ps) c ch1 ac = .error e := by
          simp only [hdcPkgLoop, hcf, he1]
        have e2 : hdcPkgLoop cat next (pkg :: ps) c ch2 ac = .error e := by
          simp only [hdcPkgLoop, hcf, he2]
        rw [e1, e2]
        exact Or.inl ⟨e, rfl, rfl⟩
      · have e1 : hdcPkgLoop cat next (pkg :: ps) c ch1 ac = hdcPkgLoop cat next ps c c1 b := by
          simp only [hdcPkgLoop, hcf, h1]
        have e2 : hdcPkgLoop cat next (pkg :: ps) c ch2 ac = hdcPkgLoop cat next ps c c2 b := by
          simp only [hdcPkgLoop, hcf, h2]
        rw [e1, e2]
        exact ih b c1 c2

theorem hdcStep_chain_irrel (cat : Catalog)
    (next : Recipe → PackageList → Chain → Except Err (Bool × Chain))
    (hnext : ∀ r c ch1 ch2, sameOutcome (next r c ch1) (next r c ch2))
    (r : Recipe) (c : PackageList) (ch1 ch2 : Chain) :
    sameOutcome (hdcStep cat next r c ch1) (hdcStep cat next r c ch2) := by
  simp only [hdcStep]
  by_cases hc : r.conflicts_with_package_list c = true
  · simp only [hc, if_true]
    exact Or.inr ⟨true, _, _, rfl, rfl⟩
  · simp only [Bool.not_eq_true] at hc
    simp only [hc, Bool.false_eq_true, if_false]
    cases ham : r.build_requires.additive_merged r.requires with
    | error e => exact Or.inl ⟨e, rfl, rfl⟩
    | ok m =>
      by_cases hlen : (m.pkgs.length != 0) = true
      · simp only [hlen, if_true]
        exact hdcPkgLoop_chain_irrel cat next hnext m.pkgs c true ch1 ch2
      · simp only [Bool.not_eq_true] at hlen
        simp only [hlen, Bool.false_eq_true, if_false]
        exact Or.inr ⟨false, ch1, ch2, rfl, rfl⟩

theorem hdc_chain_irrel (cat : Catalog) :
    ∀ (n : Nat) (r : Recipe) (c : PackageList) (ch1 ch2 : Chain),
      sameOutcome (has_dependency_conflict cat n r c ch1) (has_dependency_conflict cat n r c ch2) := by
  intro n
  induction n with
  | zero =>
    intro r c ch1 ch2
    exact Or.inl ⟨.outOfFuel, rfl, rfl⟩
  | succ n ih =>
    intro r c ch1 ch2
    rw [hdc_succ]
    exact hdcStep_chain_irrel cat (has_dependency_conflict cat n) ih r c ch1 ch2

theorem hdcRecLoop_char (next : Recipe → PackageList → Chain → Except Err (Bool × Chain))
    (hnext : ∀ r c ch1 ch2, sameOutcome (next r c ch1) (next r c ch2))
    (pkg : PackageRequest) (recs : List Recipe) (c : PackageList) :
    ∀ ch ac ac' ch', hdcRecLoop next pkg recs c ch ac = .ok (ac', ch') →
      (ac' = false ↔ (ac = false ∨ ∃ rc ∈ recs, rc.pkg.conflicts_with pkg = false ∧
        ∃ ch2, next rc c [] = .ok (false, ch2))) := by
  induction recs with
  | nil =>
    intro ch ac ac' ch' h
    simp only [hdcRecLoop] at h
    cases h
    simp
  | cons r rs ih =>
    intro ch ac ac' ch' h
    simp only [hdcRecLoop] at h
    split at h
    next hvc =>
      rw [ih ch ac ac' ch' h]
      constructor
      · rintro (h2 | ⟨rc, hm, hgood⟩)
        · exact Or.inl h2
        · exact Or.inr ⟨rc, List.mem_cons_of_mem r hm, hgood⟩
      · rintro (h2 | ⟨rc, hm, hvc2, hgood⟩)
        · exact Or.inl h2
        · rcases List.mem_cons.mp hm with he | hm2
          · subst he
            rw [hvc] at hvc2
            cases hvc2
          · exact Or.inr ⟨rc, hm2, hvc2, hgood⟩
    next hvc =>
      simp only [Bool.not_eq_true] at hvc
      split at h
      next => cases h
      next b ch2 heqnext =>
        rw [ih ch2 _ ac' ch' h]
        cases b with
        | true =>
          constructor
          · rintro (h2 | ⟨rc, hm, hgood⟩)
            · exact Or.inl h2
            · exact Or.inr ⟨rc, List.mem_cons_of_mem r hm, hgood⟩
          · rintro (h2 | ⟨rc, hm, hvc2, ch3, hgood⟩)
            · exact Or.inl h2
            · rcases List.mem_cons.mp hm with he | hm2
              · subst he
                rcases hnext rc c [] ch with ⟨e, he1, _⟩ | ⟨b2, c1, c2, h1, h2'⟩
                · rw [hgood] at he1
                  cases he1
                · rw [hgood] at h1
                  cases h1
                  rw [heqnext] at h2'
                  cases h2'
              · exact Or.inr ⟨rc, hm2, hvc2, ch3, hgood⟩
        | false =>
          constructor
          · intro _
            refine Or.inr ⟨r, List.mem_cons_self r rs, hvc, ?_⟩
            rcases hnext r c ch [] with ⟨e, he1, _⟩ | ⟨b2, c1, c2, h1, h2'⟩
            · rw [heqnext] at he1
              cases he1
            · rw [heqnext] at h1
              cases h1
              exact ⟨c2, h2'⟩
          · intro _
            exact Or.inl rfl

theorem hdcPkgLoop_char (cat : Catalog)
    (next : Recipe → PackageList → Chain → Except Err (Bool × Chain))
    (hnext : ∀ r c ch1 ch2, sameOutcome (next r c ch1) (next r c ch2))
    (ps : List PackageRequest) (c : PackageList) :
    ∀ ch ac ac' ch', hdcPkgLoop cat next ps c ch ac = .ok (ac', ch') →
      (ac' = false ↔ (ac = false ∨ ∃ pkg ∈ ps, ∃ recs, dictFind cat pkg.name = some recs ∧
        ∃ rc ∈ recs, rc.pkg.conflicts_with pkg = false ∧
          ∃ ch2, next rc c [] = .ok (false, ch2))) := by
  induction ps with
  | nil =>
    intro ch ac ac' ch' h
    simp only [hdcPkgLoop] at h
    cases h
    simp
  | cons pkg ps ih =>
    intro ch ac ac' ch' h
    simp only [hdcPkgLoop] at h
    split at h
    next hcf =>
      rw [ih ch ac ac' ch' h]
      constructor
      · rintro (h2 | ⟨pkg2, hm, hrest⟩)
        · exact Or.inl h2
        · exact Or.inr ⟨pkg2, List.mem_cons_of_mem pkg hm, hrest⟩
      · rintro (h2 | ⟨pkg2, hm, recs2, hcf2, hrest⟩)
        · exact Or.inl h2
        · rcases List.mem_cons.mp hm with he | hm2
          · subst he
            rw [hcf] at hcf2
            cases hcf2
          · exact Or.inr ⟨pkg2, hm2, recs2, hcf2, hrest⟩
    next recs hcf =>
      split at h
      next => cases h
      next ac2 ch2 heqrec =>
        rw [ih ch2 ac2 ac' ch' h]
        rw [hdcRecLoop_char next hnext pkg recs c ch ac ac2 ch2 heqrec]
        constructor
        · rintro ((h2 | ⟨rc, hm, hgood⟩) | ⟨pkg2, hm, hrest⟩)
          · exact Or.inl h2
          · exact Or.inr ⟨pkg, List.mem_cons_self pkg ps, recs, hcf, rc, hm, hgood⟩
          · exact Or.inr ⟨pkg2, List.mem_cons_of_mem pkg hm, hrest⟩
        · rintro (h2 | ⟨pkg2, hm, recs2, hcf2, hrest⟩)
          · exact Or.inl (Or.inl h2)
          · rcases List.mem_cons.mp hm with he | hm2
            · subst he
              rw [hcf] at hcf2
              cases hcf2
              exact Or.inl (Or.inr hrest)
            · exact Or.inr ⟨pkg2, hm2, recs2, hcf2, hrest⟩

/-- Claim C1 as amended: whenever has_dependency_conflict terminates normally (no
error propagates, fuel suffices), it accepts a recipe iff the recipe itself does not
conflict with the constraints and its merged build_requires/requires list is empty
or SOME (not every, as the claim said) entry has a catalog alternative that is
version-compatible and recursively accepted: the single all_conflict flag of
src/rez-cook.py lines 91-104 is cleared by any one dependency with a viable
alternative, and entries whose family is absent from the catalog are skipped. -/
theorem c1_hdc_amended (cat : Catalog) (fuel : Nat) (r : Recipe) (c : PackageList)
    (ch : Chain) (b : Bool) (ch' : Chain)
    (h : has_dependency_conflict cat (fuel + 1) r c ch = .ok (b, ch')) :
    b = false ↔ (r.conflicts_with_package_list c = false ∧
      ∃ m, r.build_requires.additive_merged r.requires = .ok m ∧
        (m.pkgs = [] ∨ ∃ pkg ∈ m.pkgs, ∃ recs, dictFind cat pkg.name = some recs ∧
          ∃ rc ∈ recs, rc.pkg.conflicts_with pkg = false ∧
            ∃ ch2, has_dependency_conflict cat fuel rc c [] = .ok (false, ch2))) := by
  rw [hdc_succ] at h
  simp only [hdcStep] at h
  split at h
  next hc =>
    cases h
    constructor
    · intro h2
      cases h2
    · rintro ⟨hc2, _⟩
      rw [hc] at hc2
      cases hc2
  next hc =>
    simp only [Bool.not_eq_true] at hc
    split at h
    next => cases h
    next m ham =>
      split at h
      next hlen =>
        rw [hdcPkgLoop_char cat (has_dependency_conflict cat fuel) (hdc_chain_irrel cat fuel)
          m.pkgs c ch true b ch' h]
        constructor
        · rintro (h2 | hex)
          · cases h2
          · exact ⟨hc, m, ham, Or.inr hex⟩
        · rintro ⟨_, m2, ham2, hdis⟩
          rw [ham] at ham2
          cases ham2
          rcases hdis with hnil | hex
          · rw [hnil] at hlen
            simp at hlen
          · exact Or.inr hex
      next hlen =>
        cases h
        simp only [Bool.not_eq_true, bne_iff_ne, Ne, not_not] at hlen
        constructor
        · intro _
          exact ⟨hc, m, ham, Or.inl (List.length_eq_zero.mp hlen)⟩
        · intro _
          rfl

/-- Witness for the amended C1 at a concrete input: recipe r (requiring a and b)
checked against empty constraints in the catalog {a: [a-1]} terminates normally with
verdict "no conflict", and the characterization applies. -/
theorem c1_hdc_amended_witness :
    (false = false ↔ (Recipe.conflicts_with_package_list exRecipeR ⟨[]⟩ = false ∧
      ∃ m, PackageList.additive_merged exRecipeR.build_requires exRecipeR.requires = .ok m ∧
        (m.pkgs = [] ∨ ∃ pkg ∈ m.pkgs, ∃ recs, dictFind exCat1 pkg.name = some recs ∧
          ∃ rc ∈ recs, PackageRequest.conflicts_with rc.pkg pkg = false ∧
            ∃ ch2, has_dependency_conflict exCat1 4 rc ⟨[]⟩ [] = .ok (false, ch2)))) :=
  c1_hdc_amended exCat1 4 exRecipeR ⟨[]⟩ [] false [] rfl

/-- Counterexample to claim C2: with catalog {a: [a-2, a-1]} and a root requiring a
at range {1,2}, both candidates pass the conflict checks and the resolver recurses
into and records BOTH of them (the loop at src/rez-cook.py lines 137-172 has an
explicit "Don't break here" comment), so the per-name result is [a-2, a-1], not just
the first passing candidate. -/
theorem c2_counterexample :
    (match build_dependency_tree exCat2 10 exRoot2 ⟨[]⟩ [] with
     | .ok (_, nd) => depsGet nd "a"
     | .error _ => []) = [exA2, exA1] ∧ exA2 ≠ exA1 := ⟨rfl, by decide⟩

theorem appendMissing_mono {x : Recipe} (drs : List Recipe) :
    ∀ ex : List Recipe, x ∈ ex → x ∈ appendMissing ex drs := by
  induction drs with
  | nil => intro ex h; exact h
  | cons dr drs ih =>
    intro ex h
    simp only [appendMissing, List.foldl_cons]
    by_cases hm : dr ∈ ex
    · rw [if_pos hm]
      exact ih ex h
    · rw [if_neg hm]
      exact ih (ex ++ [dr]) (List.mem_append.mpr (Or.inl h))

theorem depsGet_insert_self (nd : DepsMap) (k : String) (v : List Recipe) :
    depsGet (dictInsert nd k v) k = v := by
  simp [depsGet, dictFind_insert_self]

theorem depsGet_insert_ne (nd : DepsMap) (k k' : String) (v : List Recipe)
    (hne : k' ≠ k) : depsGet (dictInsert nd k v) k' = depsGet nd k' := by
  simp [depsGet, dictFind_insert_ne nd k k' v hne]

theorem depsGet_of_not_has {nd : DepsMap} {k : String} (h : dictHas nd k = false) :
    depsGet nd k = [] := by
  simp [depsGet, dictFind_eq_none_iff.mpr (dictHas_false_iff.mp h)]

theorem mergeDeps_mono (deps : DepsMap) :
    ∀ (nd : DepsMap) (k : String) (x : Recipe), x ∈ depsGet nd k → x ∈ depsGet (mergeDeps nd deps) k := by
  induction deps with
  | nil => intro nd k x h; exact h
  | cons kv deps ih =>
    intro nd k x h
    simp only [mergeDeps, List.foldl_cons]
    by_cases hh : dictHas nd kv.1 = true
    · rw [if_pos hh]
      apply ih
      by_cases hk : k = kv.1
      · subst hk
        rw [depsGet_insert_self]
        exact appendMissing_mono kv.2 (depsGet nd kv.1) h
      · rw [depsGet_insert_ne nd kv.1 k _ hk]
        exact h
    · simp only [Bool.not_eq_true] at hh
      rw [if_neg (by simp [hh])]
      apply ih
      by_cases hk : k = kv.1
      · subst hk
        rw [depsGet_of_not_has hh] at h
        cases h
      · rw [depsGet_insert_ne nd kv.1 k _ hk]
        exact h

theorem addSelf_mono {nd : DepsMap} {k : String} {x : Recipe} (r : Recipe)
    (h : x ∈ depsGet nd k) : x ∈ depsGet (addSelf nd r) k := by
  unfold addSelf
  by_cases hh : dictHas nd r.pkg.name = true
  · rw [if_pos hh]
    by_cases hm : r ∈ depsGet nd r.pkg.name
    · rw [if_pos hm]
      exact h
    · rw [if_neg hm]
      by_cases hk : k = r.pkg.name
      · subst hk
        rw [depsGet_insert_self]
        exact List.mem_append.mpr (Or.inl h)
      · rw [depsGet_insert_ne nd r.pkg.name k _ hk]
        exact h
  · simp only [Bool.not_eq_true] at hh
    rw [if_neg (by simp [hh])]
    by_cases hk : k = r.pkg.name
    · subst hk
      rw [depsGet_of_not_has hh] at h
      cases h
    · rw [depsGet_insert_ne nd r.pkg.name k _ hk]
      exact h

theorem addSelf_mem_self (nd : DepsMap) (r : Recipe) :
    r ∈ depsGet (addSelf nd r) r.pkg.name := by
  unfold addSelf
  by_cases hh : dictHas nd r.pkg.name = true
  · rw [if_pos hh]
    by_cases hm : r ∈ depsGet nd r.pkg.name
    · rw [if_pos hm]
      exact hm
    · rw [if_neg hm, depsGet_insert_self]
      exact List.mem_append.mpr (Or.inr (List.mem_singleton.mpr rfl))
  · simp only [Bool.not_eq_true] at hh
    rw [if_neg (by simp [hh]), depsGet_insert_self]
    exact List.mem_singleton.mpr rfl

theorem bdtRecLoop_deps_mono
    (nextB : Recipe → PackageList → Chain → Except Err (PackageList × DepsMap))
    (nextH : Recipe → PackageList → Chain → Except Err (Bool × Chain))
    (pkg : PackageRequest) (recs : List Recipe) :
    ∀ (c : PackageList) (chain : Chain) (nd : DepsMap) (fails : List Chain) (fa : Bool)
      (c2 : PackageList) (nd2 : DepsMap) (fails2 : List Chain) (fa2 : Bool),
      bdtRecLoop nextB nextH pkg recs c chain nd fails fa = .ok (c2, nd2, fails2, fa2) →
      ∀ (k : String) (x : Recipe), x ∈ depsGet nd k → x ∈ depsGet nd2 k := by
  induction recs with
  | nil =>
    intro c chain nd fails fa c2 nd2 fails2 fa2 h k x hx
    simp only [bdtRecLoop] at h
    cases h
    exact hx
  | cons r rs ih =>
    intro c chain nd fails fa c2 nd2 fails2 fa2 h k x hx
    simp only [bdtRecLoop] at h
    split at h
    next => exact ih _ _ _ _ _ _ _ _ _ h k x hx
    next =>
      split at h
      next => cases h
      next failchain heq =>
        exact ih _ _ _ _ _ _ _ _ _ h k x hx
      next ch2 heq =>
        split at h
        next => cases h
        next cc deps heq2 =>
          exact ih _ _ _ _ _ _ _ _ _ h k x
            (addSelf_mono r (mergeDeps_mono deps nd k x hx))

/-- Claim C2 as amended: the candidate loop of build_dependency_tree does not stop
at the first passing candidate — a candidate that passes the version check and the
recursive conflict check is recursed into, recorded under its own family name, and
the loop then continues over the remaining candidates from the updated state; the
recorded candidate stays in the per-name list of every successful continuation, and
per-name lists grow in catalog iteration order, so the first passing candidate is
the head of its list but later passing candidates are appended after it
(src/rez-cook.py lines 137-172, "Don't break here"). -/
theorem c2_resolver_amended (cat : Catalog) (fuel : Nat) (pkg : PackageRequest)
    (r : Recipe) (rs : List Recipe) (c : PackageList) (chain : Chain) (nd : DepsMap)
    (fails : List Chain) (fa : Bool) (fc : Chain) (c2 : PackageList) (deps : DepsMap)
    (hvc : PackageRequest.conflicts_with r.pkg pkg = false)
    (hok : has_dependency_conflict cat fuel r c chain = .ok (false, fc))
    (hrec : build_dependency_tree cat fuel r c (chain ++ [ChainEntry.txt (pkgReqStr r.pkg)]) =
      .ok (c2, deps)) :
    bdtRecLoop (build_dependency_tree cat fuel) (has_dependency_conflict cat fuel) pkg
        (r :: rs) c chain nd fails fa
      = bdtRecLoop (build_dependency_tree cat fuel) (has_dependency_conflict cat fuel) pkg
          rs c2 chain (addSelf (mergeDeps nd deps) r) fails true
    ∧ r ∈ depsGet (addSelf (mergeDeps nd deps) r) r.pkg.name
    ∧ (∀ c3 nd3 fails3 fa3,
        bdtRecLoop (build_dependency_tree cat fuel) (has_dependency_conflict cat fuel) pkg
          rs c2 chain (addSelf (mergeDeps nd deps) r) fails true = .ok (c3, nd3, fails3, fa3) →
        r ∈ depsGet nd3 r.pkg.name) := by
  refine ⟨?_, addSelf_mem_self (mergeDeps nd deps) r, ?_⟩
  · simp only [bdtRecLoop, hvc, Bool.false_eq_true, if_false, hok, hrec]
  · intro c3 nd3 fails3 fa3 h
    exact bdtRecLoop_deps_mono (build_dependency_tree cat fuel)
      (has_dependency_conflict cat fuel) pkg rs c2 chain
      (addSelf (mergeDeps nd deps) r) fails true c3 nd3 fails3 fa3 h
      r.pkg.name r (addSelf_mem_self (mergeDeps nd deps) r)

/-- Witness for the amended C2 at a concrete input: candidate a-2 passes, is
recorded, and survives the continuation of the loop over [a-1], which appends a-1
after it. -/
theorem c2_resolver_amended_witness :
    exA2 ∈ depsGet (addSelf (mergeDeps [] []) exA2) exA2.pkg.name ∧
    exA2 ∈ depsGet [("a", [exA2, exA1])] "a" :=
  ⟨(c2_resolver_amended exCat2 9 ⟨"a", [1, 2]⟩ exA2 [exA1] ⟨[⟨"a", [1, 2]⟩]⟩ [] [] [] false
      [] ⟨[⟨"a", [1, 2]⟩]⟩ [] rfl rfl rfl).2.1,
   (c2_resolver_amended exCat2 9 ⟨"a", [1, 2]⟩ exA2 [exA1] ⟨[⟨"a", [1, 2]⟩]⟩ [] [] [] false
      [] ⟨[⟨"a", [1, 2]⟩]⟩ [] rfl rfl rfl).2.2
     ⟨[⟨"a", [1, 2]⟩]⟩ [("a", [exA2, exA1])] [] true rfl⟩
